import Mathlib

/-!
Verification development for the confluo boolean-filter expression compiler
(`libconfluo/confluo/parser/expression_compiler.h`).

The data model (`compiled_predicate`, `compiled_minterm`,
`compiled_expression`) and the DNF compiler (`utree_compile_expression`,
`utree_expand_conjunction`, `compile_expression`) are shallow embeddings of
the source file.  The external collaborators (schema lookup, typed values,
relational comparison, AST token access), which live outside the provided
source, are modelled from the specification; every such definition is marked
with "Modelled from the spec".

The C++ `std::set` containers ordered by canonical string form are embedded
as Lean lists kept sorted (strictly ascending, hence deduplicated) by the
same canonical string key; `std::set::insert` becomes an ordered insert that
keeps the existing element on an equivalent key, and `std::set_union` into a
fresh/accumulating set becomes a sorted merge that keeps the first range's
representative for equivalent keys, exactly as the STL algorithm does.
-/

/-- Lexicographic (byte-wise) comparison of char sequences: the model of
`std::string::operator<` used by the canonical-form orderings.  Defined
structurally so that the kernel can evaluate it. -/
def chars_lt : List Char → List Char → Bool
  | [], [] => false
  | [], _ :: _ => true
  | _ :: _, [] => false
  | a :: as, b :: bs =>
    if a < b then true else if b < a then false else chars_lt as bs

/-- `std::string` `operator<`: lexicographic comparison of the contents. -/
def str_lt (a b : String) : Bool := chars_lt a.data b.data

/-- Modelled from the spec: the declared type of a schema field.  The typed
value subsystem is an external collaborator; `INT` and `STRING` suffice for
the properties verified here. -/
inductive field_type
  | INT
  | STRING
deriving DecidableEq

/-- Modelled from the spec: a typed immutable value produced by the external
typed value subsystem (`mutable_value` / `immutable_value` in the source). -/
inductive typed_value
  | intV (i : Int)
  | strV (s : String)
deriving DecidableEq

/-- Decimal digit accumulator for `parse_int`. -/
def parse_nat_aux : List Char → Nat → Option Nat
  | [], acc => some acc
  | c :: cs, acc =>
    if '0' ≤ c && c ≤ '9' then parse_nat_aux cs (acc * 10 + (c.toNat - 48))
    else none

/-- Modelled from the spec: parsing an integer literal (optional leading
minus sign, then decimal digits); anything else fails. -/
def parse_int (l : String) : Option Int :=
  match l.data with
  | [] => none
  | '-' :: rest =>
    match rest with
    | [] => none
    | _ => (parse_nat_aux rest 0).map (fun n => -(n : Int))
  | cs => (parse_nat_aux cs 0).map (fun n => (n : Int))

/-- Modelled from the spec: `parse(literal_string, declared_type) ->
typed_value`; fails (`none`) when the literal cannot be parsed into the
declared type. -/
def value_parse (lit : String) : field_type → Option typed_value
  | field_type.INT => (parse_int lit).map typed_value.intV
  | field_type.STRING => some (typed_value.strV lit)

/-- Modelled from the spec: the textual rendering of a typed value used by
`compiled_predicate::to_string` (an integer prints in decimal, a string
prints its characters). -/
def value_to_string : typed_value → String
  | typed_value.intV i => toString i
  | typed_value.strV s => s

/-- The relational operator codes recognized at leaves (`reational_op_id` in
the source, spelled as there). -/
inductive reational_op_id
  | EQ
  | NEQ
  | LT
  | GT
  | LE
  | GE
deriving DecidableEq

/-- Modelled from the spec: the integer code carried by an AST operator node
for each relational operator (`EQ, NEQ, LT, GT, LE, GE` occupy the codes
`0..5` of the external enum). -/
def relop_code : reational_op_id → Int
  | reational_op_id.EQ => 0
  | reational_op_id.NEQ => 1
  | reational_op_id.LT => 2
  | reational_op_id.GT => 3
  | reational_op_id.LE => 4
  | reational_op_id.GE => 5

/-- Modelled from the spec: decoding an integer operator code back to a
relational operator; any code outside `0..5` is not relational. -/
def relop_of_code (c : Int) : Option reational_op_id :=
  if c == 0 then some reational_op_id.EQ
  else if c == 1 then some reational_op_id.NEQ
  else if c == 2 then some reational_op_id.LT
  else if c == 3 then some reational_op_id.GT
  else if c == 4 then some reational_op_id.LE
  else if c == 5 then some reational_op_id.GE
  else none

/-- Modelled from the spec: the integer code of the `AND` combinator in the
external `and_or` enum (distinct from the relational codes `0..5`). -/
def and_or.AND : Int := 6

/-- Modelled from the spec: the integer code of the `OR` combinator in the
external `and_or` enum. -/
def and_or.OR : Int := 7

/-- Modelled from the spec: `relop_utils::op_to_str`, the operator symbol
used inside a predicate's canonical string form. -/
def op_to_str : reational_op_id → String
  | reational_op_id.EQ => "=="
  | reational_op_id.NEQ => "!="
  | reational_op_id.LT => "<"
  | reational_op_id.GT => ">"
  | reational_op_id.LE => "<="
  | reational_op_id.GE => ">="

/-- Modelled from the spec: `immutable_value::relop(op, a, b)`, the
relational comparison primitive of the typed value subsystem.  The first
value is the one fetched from the record/snapshot, the second the bound
value, matching the argument order at the call sites in the source. -/
def value_relop (op : reational_op_id) : typed_value → typed_value → Bool
  | typed_value.intV a, typed_value.intV b =>
    match op with
    | reational_op_id.EQ => a == b
    | reational_op_id.NEQ => a != b
    | reational_op_id.LT => decide (a < b)
    | reational_op_id.GT => decide (b < a)
    | reational_op_id.LE => decide (a ≤ b)
    | reational_op_id.GE => decide (b ≤ a)
  | typed_value.strV a, typed_value.strV b =>
    match op with
    | reational_op_id.EQ => a == b
    | reational_op_id.NEQ => a != b
    | reational_op_id.LT => str_lt a b
    | reational_op_id.GT => str_lt b a
    | reational_op_id.LE => !(str_lt b a)
    | reational_op_id.GE => !(str_lt a b)
  | _, _ => false

/-- Modelled from the spec: a record is a sequence of typed field values
indexed by the schema's field index (`record_t` in the source). -/
abbrev record_t := List typed_value

/-- Modelled from the spec: `r[field_idx].value()`, fetching a record's
typed value at a field index. -/
def record_get (r : record_t) (i : Nat) : typed_value :=
  List.getD r i (typed_value.strV "")

/-- Modelled from the spec: one schema entry, resolving a field name to its
canonical name, index and declared type. -/
structure schema_field where
  name : String
  idx : Nat
  ty : field_type
deriving DecidableEq

/-- Modelled from the spec: the schema maps field names to
`(canonical_name, index, declared_type)`. -/
abbrev schema_t := List schema_field

/-- Modelled from the spec: `schema[attr]`, the by-name lookup used once per
leaf at compile time; fails (`none`) on an unknown field name. -/
def schema_lookup (s : schema_t) (attr : String) : Option schema_field :=
  List.find? (fun f => f.name == attr) s

/-- Modelled from the spec: a schema snapshot exposes
`get(raw_pointer, field_index) -> typed_value`; the raw data is kept
abstract in the type parameter, as the accessor alone interprets it. -/
structure schema_snapshot (δ : Type) where
  get : δ → Nat → typed_value

/-- The boolean AST handed to the compiler, as the compiler pattern-matches
on node shape (spec: node shapes are leaf comparison, `AND`/`OR` combinator,
and unsupported constructs).  A `leaf` is an operator-code node whose two
children are the field-name and literal string tokens; a `comb` is an
operator-code node whose two children are subtrees; `func` is a
`spirit::function_base` payload; `unrecognized` is any other payload type
(carrying its `typeid` name). -/
inductive utree
  | leaf (op : Int) (attr : String) (value : String)
  | comb (op : Int) (l r : utree)
  | func
  | unrecognized (tyname : String)
deriving DecidableEq

/-- Compiled predicate: one bound, typed, field-indexed comparison
(`compiled_predicate` in the source). -/
structure compiled_predicate where
  field_name : String
  field_idx : Nat
  op : reational_op_id
  val : typed_value
deriving DecidableEq

/-- `compiled_predicate::to_string`: canonical form
`field_name + operator-symbol + value.to_string()`. -/
def compiled_predicate.to_string (p : compiled_predicate) : String :=
  p.field_name ++ op_to_str p.op ++ value_to_string p.val

/-- `compiled_predicate::test(const record_t&)`: apply the relational
operator to the record's value at `field_idx` and the bound value. -/
def compiled_predicate.test (p : compiled_predicate) (r : record_t) : Bool :=
  value_relop p.op (record_get r p.field_idx) p.val

/-- `compiled_predicate::test(const schema_snapshot&, void*)`: same
comparison, fetching the value through the snapshot accessor. -/
def compiled_predicate.test_snap {δ : Type} (p : compiled_predicate)
    (snap : schema_snapshot δ) (data : δ) : Bool :=
  value_relop p.op (snap.get data p.field_idx) p.val

/-- The canonical-string key by which `compiled_predicate::operator<`
compares predicates. -/
abbrev pkey (p : compiled_predicate) : String := compiled_predicate.to_string p

/-- The constructor `compiled_predicate(attr, op, value, s)`: looks the
field up in the schema and parses the literal into the field's declared
type; either step failing is a compilation error (spec: `UnknownField`,
`TypeMismatch / UnparsableLiteral`).  Exceptions are embedded as
`Except String`. -/
def mk_predicate (attr : String) (op : reational_op_id) (value : String)
    (s : schema_t) : Except String compiled_predicate :=
  match schema_lookup s attr with
  | none => Except.error ("UnknownField " ++ attr)
  | some f =>
    match value_parse value f.ty with
    | none => Except.error ("UnparsableLiteral " ++ value)
    | some v => Except.ok ⟨f.name, f.idx, op, v⟩

/-- Compiled minterm: the `std::set<compiled_predicate>` ordered by
canonical string form, embedded as a strictly-ascending list. -/
abbrev compiled_minterm := List compiled_predicate

/-- `compiled_minterm::add` (that is, `std::set::insert` ordered by
`compiled_predicate::operator<`): ordered insert that is a no-op when an
element with an equal canonical string is already present. -/
def minsert : compiled_minterm → compiled_predicate → compiled_minterm
  | [], p => [p]
  | q :: qs, p =>
    if str_lt (pkey p) (pkey q) then p :: q :: qs
    else if str_lt (pkey q) (pkey p) then q :: minsert qs p
    else q :: qs

/-- `compiled_minterm::test(const record_t&)`: iterate the members in set
order, returning `false` at the first predicate that tests false, `true` if
none does. -/
def compiled_minterm.test : compiled_minterm → record_t → Bool
  | [], _ => true
  | p :: ps, r =>
    if compiled_predicate.test p r then compiled_minterm.test ps r else false

/-- `compiled_minterm::test(const schema_snapshot&, void*)`: the same loop
on the snapshot path. -/
def compiled_minterm.test_snap {δ : Type} :
    compiled_minterm → schema_snapshot δ → δ → Bool
  | [], _, _ => true
  | p :: ps, snap, data =>
    if compiled_predicate.test_snap p snap data then
      compiled_minterm.test_snap ps snap data
    else false

/-- The body of `compiled_minterm::to_string`: the loop appends each
predicate's canonical form and, while the incremented counter is still below
`size()` (that is, whenever elements remain), the separator `" and "`. -/
def mts_aux : List compiled_predicate → String
  | [] => ""
  | p :: rest =>
    compiled_predicate.to_string p ++ (if rest.isEmpty then "" else " and ")
      ++ mts_aux rest

/-- `compiled_minterm::to_string`: predicates' canonical forms joined by
`" and "` in set order. -/
def compiled_minterm.to_string (m : compiled_minterm) : String := mts_aux m

/-- The canonical-string key by which `compiled_minterm::operator<` compares
minterms. -/
abbrev mkey (m : compiled_minterm) : String := compiled_minterm.to_string m

/-- Compiled expression: the `std::set<compiled_minterm>` ordered by
canonical string form, embedded as a strictly-ascending list. -/
abbrev compiled_expression := List compiled_minterm

/-- Fuelled worker for `std::set_union` on two ranges sorted by `mkey`
(fuel makes the two-list merge structurally recursive, hence kernel
reducible; `set_union_fuel (a.length + b.length)` never exhausts it).  On
equivalent elements the STL algorithm emits the first range's element and
advances both ranges. -/
def set_union_fuel : Nat → compiled_expression → compiled_expression → compiled_expression
  | 0, a, b => a ++ b
  | Nat.succ n, a, b =>
    match a with
    | [] => b
    | x :: xs =>
      match b with
      | [] => x :: xs
      | y :: ys =>
        if str_lt (mkey y) (mkey x) then y :: set_union_fuel n (x :: xs) ys
        else if str_lt (mkey x) (mkey y) then x :: set_union_fuel n xs (y :: ys)
        else x :: set_union_fuel n xs ys

/-- `std::set_union(left, right, inserter(e))` with `e` the (possibly
accumulating) destination set: the deduplicating sorted merge, keeping the
first range's representative for equivalent keys. -/
def exp_union (a b : compiled_expression) : compiled_expression :=
  set_union_fuel (a.length + b.length) a b

/-- The loop of `compiled_expression::test(const record_t&)`: `true` at the
first minterm that tests true, `false` if none does. -/
def ce_loop : compiled_expression → record_t → Bool
  | [], _ => false
  | m :: ms, r =>
    if compiled_minterm.test m r then true else ce_loop ms r

/-- `compiled_expression::test(const record_t&)`: an empty expression
short-circuits to `true` (the always-match sentinel); otherwise OR over the
minterms. -/
def compiled_expression.test (e : compiled_expression) (r : record_t) : Bool :=
  if e.isEmpty then true else ce_loop e r

/-- The loop of `compiled_expression::test(const schema_snapshot&, void*)`. -/
def ce_loop_snap {δ : Type} : compiled_expression → schema_snapshot δ → δ → Bool
  | [], _, _ => false
  | m :: ms, snap, data =>
    if compiled_minterm.test_snap m snap data then true
    else ce_loop_snap ms snap data

/-- `compiled_expression::test(const schema_snapshot&, void*)`: the same
empty-is-true sentinel on the snapshot path. -/
def compiled_expression.test_snap {δ : Type} (e : compiled_expression)
    (snap : schema_snapshot δ) (data : δ) : Bool :=
  if e.isEmpty then true else ce_loop_snap e snap data

/-- The body of `compiled_expression::to_string`: the loop appends each
minterm's canonical form and the separator `" or "` only while the
incremented counter is still below `size() - 1`; position `k` (0-based) gets
a separator iff `k + 1 < size - 1`, i.e. iff more than one element remains
after it. -/
def ces_aux : List compiled_minterm → String
  | [] => ""
  | m :: rest =>
    compiled_minterm.to_string m ++ (if 1 < rest.length then " or " else "")
      ++ ces_aux rest

/-- `compiled_expression::to_string` (with the source's `++i < s - 1`
separator condition reproduced exactly). -/
def compiled_expression.to_string (e : compiled_expression) : String :=
  ces_aux e

/-- The accumulation loop shared by the `AND` cases of both visitors:
`for (m : ms) { tmp = f m; e = set_union(e, tmp); }`, propagating the first
compilation error. -/
def expandListGo (f : compiled_minterm → Except String compiled_expression) :
    List compiled_minterm → compiled_expression → Except String compiled_expression
  | [], acc => Except.ok acc
  | lm :: rest, acc =>
    match f lm with
    | Except.error msg => Except.error msg
    | Except.ok tmp => expandListGo f rest (exp_union acc tmp)

/-- Fuelled worker for `utree_expand_conjunction::operator()` (fuel bounds
the recursion depth so the definition is structurally recursive and kernel
reducible; the wrapper supplies fuel exceeding the tree height).  The
branches follow the source `switch` in order: the six relational cases build
`m.add(compiled_predicate(attr, op, value, schema))` as a singleton result;
`OR` unions the two recursive expansions; `AND` expands the left, then folds
the right expansion over its minterms; any other code throws
`"Unexpected op:"`.  A combinator code over string children, or a relational
code over subtree children, makes the external token visitors throw their
`"Unrecognized type"` error, modelled here with the payload kind's name. -/
def expandF (s : schema_t) : Nat → utree → compiled_minterm → Except String compiled_expression
  | 0, _, _ => Except.error "OutOfFuel"
  | Nat.succ fuel, t, m =>
    match t with
    | utree.leaf op attr value =>
      match relop_of_code op with
      | some rop =>
        match mk_predicate attr rop value s with
        | Except.error msg => Except.error msg
        | Except.ok p => Except.ok [minsert m p]
      | none =>
        if op == and_or.OR || op == and_or.AND then
          Except.error "Unrecognized type string"
        else Except.error ("Unexpected op:" ++ toString op)
    | utree.comb op l r =>
      match relop_of_code op with
      | some _ => Except.error "Unrecognized type range"
      | none =>
        if op == and_or.OR then
          match expandF s fuel l m with
          | Except.error msg => Except.error msg
          | Except.ok left =>
            match expandF s fuel r m with
            | Except.error msg => Except.error msg
            | Except.ok right => Except.ok (exp_union left right)
        else if op == and_or.AND then
          match expandF s fuel l m with
          | Except.error msg => Except.error msg
          | Except.ok lor => expandListGo (expandF s fuel r) lor []
        else Except.error ("Unexpected op:" ++ toString op)
    | utree.func => Except.error "Functions not supported"
    | utree.unrecognized tyname => Except.error ("Unrecognized type " ++ tyname)

/-- Height of an AST, used to supply sufficient fuel. -/
def utree.height : utree → Nat
  | utree.leaf _ _ _ => 1
  | utree.comb _ l r => max (utree.height l) (utree.height r) + 1
  | utree.func => 1
  | utree.unrecognized _ => 1

/-- `utree_expand_conjunction(m, schema)` applied to a subtree: conjoin the
already-built minterm `m` with the not-yet-compiled subtree. -/
def utree_expand_conjunction (s : schema_t) (t : utree) (m : compiled_minterm) :
    Except String compiled_expression :=
  expandF s (utree.height t) t m

/-- `utree_compile_expression::operator()`: the top-level compile step.  The
branches follow the source `switch` in order: a relational code builds a
fresh singleton minterm around the compiled predicate; `OR` unions the two
compiled halves; `AND` compiles the left half and folds
`utree_expand_conjunction` with the right subtree over its minterms;
`function_base` and unrecognized payloads throw; any other code throws
`"Unexpected op:"`. -/
def utree_compile_expression (s : schema_t) : utree → Except String compiled_expression
  | utree.leaf op attr value =>
    match relop_of_code op with
    | some rop =>
      match mk_predicate attr rop value s with
      | Except.error msg => Except.error msg
      | Except.ok p => Except.ok [minsert [] p]
    | none =>
      if op == and_or.OR || op == and_or.AND then
        Except.error "Unrecognized type string"
      else Except.error ("Unexpected op:" ++ toString op)
  | utree.comb op l r =>
    match relop_of_code op with
    | some _ => Except.error "Unrecognized type range"
    | none =>
      if op == and_or.OR then
        match utree_compile_expression s l with
        | Except.error msg => Except.error msg
        | Except.ok left =>
          match utree_compile_expression s r with
          | Except.error msg => Except.error msg
          | Except.ok right => Except.ok (exp_union left right)
      else if op == and_or.AND then
        match utree_compile_expression s l with
        | Except.error msg => Except.error msg
        | Except.ok left => expandListGo (utree_expand_conjunction s r) left []
      else Except.error ("Unexpected op:" ++ toString op)
  | utree.func => Except.error "Functions not supported"
  | utree.unrecognized tyname => Except.error ("Unrecognized type " ++ tyname)

/-- `compile_expression(e, schema)`: the top-level entry point. -/
def compile_expression (e : utree) (s : schema_t) : Except String compiled_expression :=
  utree_compile_expression s e

/-- Strict ascending order of a minterm's members by predicate canonical
form: the `std::set<compiled_predicate>` representation invariant. -/
abbrev SortedM (m : compiled_minterm) : Prop :=
  m.Pairwise (fun p q => str_lt (pkey p) (pkey q) = true)

/-- Strict ascending order of an expression's members by minterm canonical
form: the `std::set<compiled_minterm>` representation invariant. -/
abbrev SortedE (e : compiled_expression) : Prop :=
  e.Pairwise (fun a b => str_lt (mkey a) (mkey b) = true)

/-- The leaf comparisons (operator code, field-name token, literal token) of
an AST, in source order. -/
def leavesOf : utree → List (Int × String × String)
  | utree.leaf op attr value => [(op, attr, value)]
  | utree.comb _ l r => leavesOf l ++ leavesOf r
  | utree.func => []
  | utree.unrecognized _ => []

/-- Whether the predicate a leaf would compile to (when its operator is
relational and its compilation succeeds) belongs to the universe `U`. -/
def leaf_pred_in (s : schema_t) (U : List compiled_predicate)
    (x : Int × String × String) : Bool :=
  match relop_of_code x.1 with
  | none => true
  | some rop =>
    match mk_predicate x.2.1 rop x.2.2 s with
    | Except.error _ => true
    | Except.ok p => U.contains p

/-- Whether every successfully compiling leaf of `t` yields a predicate in
the universe `U`. -/
def leaves_in (s : schema_t) (U : List compiled_predicate) (t : utree) : Bool :=
  (leavesOf t).all (leaf_pred_in s U)

/-- The predicates successfully compiled from the leaves of an AST. -/
def leafPreds (s : schema_t) : utree → List compiled_predicate
  | utree.leaf op attr value =>
    match relop_of_code op with
    | none => []
    | some rop =>
      match mk_predicate attr rop value s with
      | Except.error _ => []
      | Except.ok p => [p]
  | utree.comb _ l r => leafPreds s l ++ leafPreds s r
  | utree.func => []
  | utree.unrecognized _ => []

/-- Collision-freedom of the canonical string form over a predicate
universe `U`: any two canonical (strictly ascending, hence representable as
sublists of a sorted `U`) minterms over `U` with the same canonical string
are equal.  This is the decidable faithfulness hypothesis under which the
string-keyed set containers behave as genuine sets of minterms. -/
def FaithfulB (U : List compiled_predicate) : Bool :=
  U.sublists.all (fun m1 =>
    U.sublists.all (fun m2 => !(mkey m1 == mkey m2) || (m1 == m2)))

/-- Irreflexivity of the string order. -/
theorem chars_lt_irrefl : ∀ l : List Char, chars_lt l l = false := by
  intro l
  induction l with
  | nil => rfl
  | cons a as ih => simp [chars_lt, lt_irrefl, ih]

/-- Asymmetry of the string order. -/
theorem chars_lt_asymm :
    ∀ l1 l2 : List Char, chars_lt l1 l2 = true → chars_lt l2 l1 = false := by
  intro l1
  induction l1 with
  | nil =>
    intro l2 h
    cases l2 with
    | nil => simp [chars_lt] at h
    | cons b bs => simp [chars_lt]
  | cons a as ih =>
    intro l2 h
    cases l2 with
    | nil => simp [chars_lt] at h
    | cons b bs =>
      simp only [chars_lt] at h ⊢
      rcases lt_trichotomy a b with hab | hab | hab
      · simp [hab, lt_asymm hab]
      · subst hab
        simp [lt_irrefl] at h ⊢
        exact ih bs h
      · simp [hab, lt_asymm hab] at h

/-- Transitivity of the string order. -/
theorem chars_lt_trans :
    ∀ l1 l2 l3 : List Char, chars_lt l1 l2 = true → chars_lt l2 l3 = true →
      chars_lt l1 l3 = true := by
  intro l1
  induction l1 with
  | nil =>
    intro l2 l3 h1 h2
    cases l2 with
    | nil => simp [chars_lt] at h1
    | cons b bs =>
      cases l3 with
      | nil => simp [chars_lt] at h2
      | cons c cs => simp [chars_lt]
  | cons a as ih =>
    intro l2 l3 h1 h2
    cases l2 with
    | nil => simp [chars_lt] at h1
    | cons b bs =>
      cases l3 with
      | nil => simp [chars_lt] at h2
      | cons c cs =>
        simp only [chars_lt] at h1 h2 ⊢
        rcases lt_trichotomy a b with hab | hab | hab
        · rcases lt_trichotomy b c with hbc | hbc | hbc
          · simp [lt_trans hab hbc]
          · subst hbc; simp [hab]
          · simp [hbc, lt_asymm hbc] at h2
        · subst hab
          rcases lt_trichotomy a c with hac | hac | hac
          · simp [hac]
          · subst hac
            simp [lt_irrefl] at h1 h2 ⊢
            exact ih _ _ h1 h2
          · simp [hac, lt_asymm hac] at h2
        · simp [hab, lt_asymm hab] at h1

/-- Totality: two strings neither of which is below the other are equal. -/
theorem chars_eq_of_not_lt :
    ∀ l1 l2 : List Char, chars_lt l1 l2 = false → chars_lt l2 l1 = false →
      l1 = l2 := by
  intro l1
  induction l1 with
  | nil =>
    intro l2 h1 _
    cases l2 with
    | nil => rfl
    | cons b bs => simp [chars_lt] at h1
  | cons a as ih =>
    intro l2 h1 h2
    cases l2 with
    | nil => simp [chars_lt] at h2
    | cons b bs =>
      simp only [chars_lt] at h1 h2
      rcases lt_trichotomy a b with hab | hab | hab
      · simp [hab] at h1
      · subst hab
        simp [lt_irrefl] at h1 h2
        rw [ih bs h1 h2]
      · simp [hab, lt_asymm hab] at h2

/-- Irreflexivity of `str_lt`. -/
theorem str_lt_irrefl (a : String) : str_lt a a = false :=
  chars_lt_irrefl a.data

/-- Asymmetry of `str_lt`. -/
theorem str_lt_asymm {a b : String} (h : str_lt a b = true) :
    str_lt b a = false :=
  chars_lt_asymm a.data b.data h

/-- Transitivity of `str_lt`. -/
theorem str_lt_trans {a b c : String} (h1 : str_lt a b = true)
    (h2 : str_lt b c = true) : str_lt a c = true :=
  chars_lt_trans a.data b.data c.data h1 h2

/-- Totality of `str_lt`: incomparable strings are equal. -/
theorem str_eq_of_not_lt {a b : String} (h1 : str_lt a b = false)
    (h2 : str_lt b a = false) : a = b := by
  cases a
  cases b
  exact congrArg String.mk (chars_eq_of_not_lt _ _ h1 h2)

/-- Trichotomy of `str_lt`. -/
theorem str_lt_trichotomy (a b : String) :
    str_lt a b = true ∨ (str_lt a b = false ∧ str_lt b a = false ∧ a = b) ∨
      str_lt b a = true := by
  cases h1 : str_lt a b with
  | true => exact Or.inl rfl
  | false =>
    cases h2 : str_lt b a with
    | true => exact Or.inr (Or.inr rfl)
    | false => exact Or.inr (Or.inl ⟨rfl, rfl, str_eq_of_not_lt h1 h2⟩)

/-- Fuel irrelevance for the merge worker: any sufficient fuel computes the
same result. -/
theorem set_union_fuel_irrel :
    ∀ n1 n2 a b, a.length + b.length ≤ n1 → a.length + b.length ≤ n2 →
      set_union_fuel n1 a b = set_union_fuel n2 a b := by
  intro n1
  induction n1 with
  | zero =>
    intro n2 a b h1 h2
    have ha : a = [] := by
      cases a with
      | nil => rfl
      | cons x xs => simp at h1
    have hb : b = [] := by
      cases b with
      | nil => rfl
      | cons y ys => simp at h1
    subst ha; subst hb
    cases n2 with
    | zero => rfl
    | succ k => rfl
  | succ k ih =>
    intro n2 a b h1 h2
    cases n2 with
    | zero =>
      have ha : a = [] := by
        cases a with
        | nil => rfl
        | cons x xs => simp at h2
      have hb : b = [] := by
        cases b with
        | nil => rfl
        | cons y ys => simp at h2
      subst ha; subst hb
      rfl
    | succ k2 =>
      cases a with
      | nil => rfl
      | cons x xs =>
        cases b with
        | nil => rfl
        | cons y ys =>
          simp only [set_union_fuel]
          rcases str_lt_trichotomy (mkey y) (mkey x) with hyx | ⟨hyx, hxy, _⟩ | hxy
          · simp only [if_pos hyx]
            rw [ih k2 (x :: xs) ys (by simp at h1 ⊢; omega) (by simp at h2 ⊢; omega)]
          · have hnyx : ¬ (str_lt (mkey y) (mkey x) = true) := by simp [hyx]
            have hnxy : ¬ (str_lt (mkey x) (mkey y) = true) := by simp [hxy]
            simp only [if_neg hnyx, if_neg hnxy]
            rw [ih k2 xs ys (by simp at h1 ⊢; omega) (by simp at h2 ⊢; omega)]
          · have hnyx : ¬ (str_lt (mkey y) (mkey x) = true) := by
              simp [str_lt_asymm hxy]
            simp only [if_neg hnyx, if_pos hxy]
            rw [ih k2 xs (y :: ys) (by simp at h1 ⊢; omega) (by simp at h2 ⊢; omega)]

/-- Left-empty merge. -/
theorem exp_union_nil_left (b : compiled_expression) : exp_union [] b = b := by
  cases b with
  | nil => rfl
  | cons y ys => rfl

/-- Right-empty merge. -/
theorem exp_union_nil_right (a : compiled_expression) : exp_union a [] = a := by
  cases a with
  | nil => rfl
  | cons x xs => rfl

/-- The recursive step of the deduplicating merge. -/
theorem exp_union_cons (x y : compiled_minterm) (xs ys : List compiled_minterm) :
    exp_union (x :: xs) (y :: ys) =
      if str_lt (mkey y) (mkey x) then y :: exp_union (x :: xs) ys
      else if str_lt (mkey x) (mkey y) then x :: exp_union xs (y :: ys)
      else x :: exp_union xs ys := by
  have step : exp_union (x :: xs) (y :: ys) =
      (if str_lt (mkey y) (mkey x) then
        y :: set_union_fuel (xs.length + 1 + ys.length) (x :: xs) ys
      else if str_lt (mkey x) (mkey y) then
        x :: set_union_fuel (xs.length + 1 + ys.length) xs (y :: ys)
      else x :: set_union_fuel (xs.length + 1 + ys.length) xs ys) := rfl
  rw [step]
  rw [set_union_fuel_irrel (xs.length + 1 + ys.length) ((x :: xs).length + ys.length)
    (x :: xs) ys (by simp) (by simp)]
  rw [set_union_fuel_irrel (xs.length + 1 + ys.length) (xs.length + (y :: ys).length)
    xs (y :: ys) (by simp; omega) (by simp)]
  rw [set_union_fuel_irrel (xs.length + 1 + ys.length) (xs.length + ys.length)
    xs ys (by omega) (by omega)]
  rfl

/-- A merge of two sets is empty only if both are. -/
theorem exp_union_eq_nil (a b : compiled_expression) :
    exp_union a b = [] ↔ a = [] ∧ b = [] := by
  cases a with
  | nil => simp [exp_union_nil_left]
  | cons x xs =>
    cases b with
    | nil => simp [exp_union_nil_right]
    | cons y ys =>
      rw [exp_union_cons]
      constructor
      · intro h
        rcases str_lt_trichotomy (mkey y) (mkey x) with hyx | ⟨hyx, hxy, _⟩ | hxy
        · simp only [if_pos hyx] at h
          exact absurd h (by simp)
        · have hnyx : ¬ (str_lt (mkey y) (mkey x) = true) := by simp [hyx]
          have hnxy : ¬ (str_lt (mkey x) (mkey y) = true) := by simp [hxy]
          simp only [if_neg hnyx, if_neg hnxy] at h
          exact absurd h (by simp)
        · have hnyx : ¬ (str_lt (mkey y) (mkey x) = true) := by
            simp [str_lt_asymm hxy]
          simp only [if_neg hnyx, if_pos hxy] at h
          exact absurd h (by simp)
      · intro h
        simp at h

/-- Members of a merge come from one of the two merged sets. -/
theorem mem_exp_union :
    ∀ a b : compiled_expression, ∀ z, z ∈ exp_union a b → z ∈ a ∨ z ∈ b := by
  intro a
  induction a with
  | nil =>
    intro b z h
    rw [exp_union_nil_left] at h
    exact Or.inr h
  | cons x xs iha =>
    intro b
    induction b with
    | nil =>
      intro z h
      rw [exp_union_nil_right] at h
      exact Or.inl h
    | cons y ys ihb =>
      intro z h
      rw [exp_union_cons] at h
      rcases str_lt_trichotomy (mkey y) (mkey x) with hyx | ⟨hyx, hxy, _⟩ | hxy
      · simp only [if_pos hyx] at h
        rcases List.mem_cons.mp h with hz | hz
        · exact Or.inr (by simp [hz])
        · rcases ihb z hz with hz2 | hz2
          · exact Or.inl hz2
          · exact Or.inr (by simp [hz2])
      · have hnyx : ¬ (str_lt (mkey y) (mkey x) = true) := by simp [hyx]
        have hnxy : ¬ (str_lt (mkey x) (mkey y) = true) := by simp [hxy]
        simp only [if_neg hnyx, if_neg hnxy] at h
        rcases List.mem_cons.mp h with hz | hz
        · exact Or.inl (by simp [hz])
        · rcases iha ys z hz with hz2 | hz2
          · exact Or.inl (by simp [hz2])
          · exact Or.inr (by simp [hz2])
      · have hnyx : ¬ (str_lt (mkey y) (mkey x) = true) := by
          simp [str_lt_asymm hxy]
        simp only [if_neg hnyx, if_pos hxy] at h
        rcases List.mem_cons.mp h with hz | hz
        · exact Or.inl (by simp [hz])
        · rcases iha (y :: ys) z hz with hz2 | hz2
          · exact Or.inl (by simp [hz2])
          · exact Or.inr hz2

/-- Members of an ordered insert are the new predicate or old members. -/
theorem mem_minsert :
    ∀ (m : compiled_minterm) (p x : compiled_predicate),
      x ∈ minsert m p → x = p ∨ x ∈ m := by
  intro m
  induction m with
  | nil =>
    intro p x h
    simp [minsert] at h
    exact Or.inl h
  | cons q qs ih =>
    intro p x h
    simp only [minsert] at h
    rcases str_lt_trichotomy (pkey p) (pkey q) with hpq | ⟨hpq, hqp, _⟩ | hqp
    · simp only [if_pos hpq] at h
      rcases List.mem_cons.mp h with hz | hz
      · exact Or.inl hz
      · exact Or.inr hz
    · have hnpq : ¬ (str_lt (pkey p) (pkey q) = true) := by simp [hpq]
      have hnqp : ¬ (str_lt (pkey q) (pkey p) = true) := by simp [hqp]
      simp only [if_neg hnpq, if_neg hnqp] at h
      exact Or.inr h
    · have hnpq : ¬ (str_lt (pkey p) (pkey q) = true) := by
        simp [str_lt_asymm hqp]
      simp only [if_neg hnpq, if_pos hqp] at h
      rcases List.mem_cons.mp h with hz | hz
      · exact Or.inr (by simp [hz])
      · rcases ih p x hz with hz2 | hz2
        · exact Or.inl hz2
        · exact Or.inr (by simp [hz2])

/-- Ordered insert preserves the strict-ascending set invariant. -/
theorem minsert_sorted :
    ∀ (m : compiled_minterm) (p : compiled_predicate),
      SortedM m → SortedM (minsert m p) := by
  intro m
  induction m with
  | nil =>
    intro p _
    simp [minsert]
  | cons q qs ih =>
    intro p hs
    rcases List.pairwise_cons.mp hs with ⟨hq, hqs⟩
    simp only [minsert]
    rcases str_lt_trichotomy (pkey p) (pkey q) with hpq | ⟨hpq, hqp, _⟩ | hqp
    · rw [if_pos hpq]
      refine List.pairwise_cons.mpr ⟨?_, hs⟩
      intro y hy
      rcases List.mem_cons.mp hy with hz | hz
      · rw [hz]; exact hpq
      · exact str_lt_trans hpq (hq y hz)
    · have hnpq : ¬ (str_lt (pkey p) (pkey q) = true) := by simp [hpq]
      have hnqp : ¬ (str_lt (pkey q) (pkey p) = true) := by simp [hqp]
      rw [if_neg hnpq, if_neg hnqp]
      exact hs
    · have hnpq : ¬ (str_lt (pkey p) (pkey q) = true) := by
        simp [str_lt_asymm hqp]
      rw [if_neg hnpq, if_pos hqp]
      refine List.pairwise_cons.mpr ⟨?_, ih p hqs⟩
      intro y hy
      rcases mem_minsert qs p y hy with hz | hz
      · rw [hz]; exact hqp
      · exact hq y hz

/-- The minterm test loop computes the conjunction of the member tests. -/
theorem minterm_test_eq_all (m : compiled_minterm) (r : record_t) :
    compiled_minterm.test m r = m.all (fun p => compiled_predicate.test p r) := by
  induction m with
  | nil => rfl
  | cons p ps ih =>
    simp only [compiled_minterm.test, List.all_cons]
    cases h : compiled_predicate.test p r with
    | false => simp [h]
    | true => simp [h, ih]

/-- The expression test loop computes the disjunction of the minterm tests. -/
theorem ce_loop_eq_any (e : compiled_expression) (r : record_t) :
    ce_loop e r = e.any (fun m => compiled_minterm.test m r) := by
  induction e with
  | nil => rfl
  | cons m ms ih =>
    simp only [ce_loop, List.any_cons]
    cases h : compiled_minterm.test m r with
    | false => simp [h, ih]
    | true => simp [h]

/-- On a nonempty expression, `test` is just the OR loop (the empty-set
sentinel does not fire). -/
theorem ce_test_of_ne_nil {e : compiled_expression} (h : e ≠ []) (r : record_t) :
    compiled_expression.test e r = ce_loop e r := by
  cases e with
  | nil => exact absurd rfl h
  | cons m ms => rfl

/-- Fuel irrelevance for the expansion worker: any fuel at least the tree
height computes `utree_expand_conjunction`. -/
theorem expandF_irrel (s : schema_t) :
    ∀ (t : utree) (n : Nat) (m : compiled_minterm), utree.height t ≤ n →
      expandF s n t m = utree_expand_conjunction s t m := by
  intro t
  induction t with
  | leaf op attr value =>
    intro n m h
    cases n with
    | zero => simp [utree.height] at h
    | succ k => rfl
  | comb op l r ihl ihr =>
    intro n m h
    cases n with
    | zero => simp [utree.height] at h
    | succ k =>
      have hl : utree.height l ≤ k := by
        simp [utree.height] at h
        omega
      have hr : utree.height r ≤ k := by
        simp [utree.height] at h
        omega
      have hlm : utree.height l ≤ max (utree.height l) (utree.height r) :=
        le_max_left _ _
      have hrm : utree.height r ≤ max (utree.height l) (utree.height r) :=
        le_max_right _ _
      have el : expandF s k l = expandF s (max (utree.height l) (utree.height r)) l := by
        funext mm
        rw [ihl k mm hl, ihl (max (utree.height l) (utree.height r)) mm hlm]
      have er : expandF s k r = expandF s (max (utree.height l) (utree.height r)) r := by
        funext mm
        rw [ihr k mm hr, ihr (max (utree.height l) (utree.height r)) mm hrm]
      show expandF s (Nat.succ k) (utree.comb op l r) m =
        expandF s (Nat.succ (max (utree.height l) (utree.height r))) (utree.comb op l r) m
      simp only [expandF]
      rw [el, er]
  | func =>
    intro n m h
    cases n with
    | zero => simp [utree.height] at h
    | succ k => rfl
  | unrecognized tyname =>
    intro n m h
    cases n with
    | zero => simp [utree.height] at h
    | succ k => rfl

/-- Defining equation of `utree_expand_conjunction` on a leaf node. -/
theorem uec_leaf (s : schema_t) (op : Int) (attr value : String)
    (m : compiled_minterm) :
    utree_expand_conjunction s (utree.leaf op attr value) m =
      match relop_of_code op with
      | some rop =>
        match mk_predicate attr rop value s with
        | Except.error msg => Except.error msg
        | Except.ok p => Except.ok [minsert m p]
      | none =>
        if op == and_or.OR || op == and_or.AND then
          Except.error "Unrecognized type string"
        else Except.error ("Unexpected op:" ++ toString op) := rfl

/-- Defining equation of `utree_expand_conjunction` on a function node. -/
theorem uec_func (s : schema_t) (m : compiled_minterm) :
    utree_expand_conjunction s utree.func m =
      Except.error "Functions not supported" := rfl

/-- Defining equation of `utree_expand_conjunction` on an unrecognized
payload. -/
theorem uec_unrecognized (s : schema_t) (tyname : String) (m : compiled_minterm) :
    utree_expand_conjunction s (utree.unrecognized tyname) m =
      Except.error ("Unrecognized type " ++ tyname) := rfl

/-- Defining equation of `utree_expand_conjunction` on a combinator node
(the fuel of the worker is irrelevant above the tree height). -/
theorem uec_comb (s : schema_t) (op : Int) (l r : utree) (m : compiled_minterm) :
    utree_expand_conjunction s (utree.comb op l r) m =
      match relop_of_code op with
      | some _ => Except.error "Unrecognized type range"
      | none =>
        if op == and_or.OR then
          match utree_expand_conjunction s l m with
          | Except.error msg => Except.error msg
          | Except.ok left =>
            match utree_expand_conjunction s r m with
            | Except.error msg => Except.error msg
            | Except.ok right => Except.ok (exp_union left right)
        else if op == and_or.AND then
          match utree_expand_conjunction s l m with
          | Except.error msg => Except.error msg
          | Except.ok lor => expandListGo (utree_expand_conjunction s r) lor []
        else Except.error ("Unexpected op:" ++ toString op) := by
  have el : expandF s (max (utree.height l) (utree.height r)) l =
      utree_expand_conjunction s l := by
    funext mm
    exact expandF_irrel s l _ mm (le_max_left _ _)
  have er : expandF s (max (utree.height l) (utree.height r)) r =
      utree_expand_conjunction s r := by
    funext mm
    exact expandF_irrel s r _ mm (le_max_right _ _)
  show expandF s (Nat.succ (max (utree.height l) (utree.height r)))
    (utree.comb op l r) m = _
  simp only [expandF]
  rw [el, er]

/-- The deduplicating merge preserves the strict-ascending set invariant. -/
theorem exp_union_sorted :
    ∀ a b : compiled_expression, SortedE a → SortedE b →
      SortedE (exp_union a b) := by
  intro a
  induction a with
  | nil =>
    intro b _ hb
    rw [exp_union_nil_left]
    exact hb
  | cons x xs iha =>
    intro b
    induction b with
    | nil =>
      intro ha _
      rw [exp_union_nil_right]
      exact ha
    | cons y ys ihb =>
      intro ha hb
      rcases List.pairwise_cons.mp ha with ⟨hx, hxs⟩
      rcases List.pairwise_cons.mp hb with ⟨hy, hys⟩
      rw [exp_union_cons]
      rcases str_lt_trichotomy (mkey y) (mkey x) with hyx | ⟨hyx, hxy, heq⟩ | hxy
      · rw [if_pos hyx]
        refine List.pairwise_cons.mpr ⟨?_, ihb ha hys⟩
        intro z hz
        rcases mem_exp_union (x :: xs) ys z hz with hz2 | hz2
        · rcases List.mem_cons.mp hz2 with hz3 | hz3
          · rw [hz3]; exact hyx
          · exact str_lt_trans hyx (hx z hz3)
        · exact hy z hz2
      · have hnyx : ¬ (str_lt (mkey y) (mkey x) = true) := by simp [hyx]
        have hnxy : ¬ (str_lt (mkey x) (mkey y) = true) := by simp [hxy]
        rw [if_neg hnyx, if_neg hnxy]
        refine List.pairwise_cons.mpr ⟨?_, iha ys hxs hys⟩
        intro z hz
        rcases mem_exp_union xs ys z hz with hz2 | hz2
        · exact hx z hz2
        · rw [← heq]
          exact hy z hz2
      · have hnyx : ¬ (str_lt (mkey y) (mkey x) = true) := by
          simp [str_lt_asymm hxy]
        rw [if_neg hnyx, if_pos hxy]
        refine List.pairwise_cons.mpr ⟨?_, iha (y :: ys) hxs hb⟩
        intro z hz
        rcases mem_exp_union xs (y :: ys) z hz with hz2 | hz2
        · exact hx z hz2
        · rcases List.mem_cons.mp hz2 with hz3 | hz3
          · rw [hz3]; exact hxy
          · exact str_lt_trans hxy (hy z hz3)

/-- Unpacking the decidable faithfulness check: equal canonical strings of
sublists of `U` force equal minterms. -/
theorem faithfulB_spec {U : List compiled_predicate} (h : FaithfulB U = true) :
    ∀ m1 m2 : compiled_minterm, m1.Sublist U → m2.Sublist U →
      mkey m1 = mkey m2 → m1 = m2 := by
  intro m1 m2 h1 h2 hk
  have h1m : m1 ∈ U.sublists := List.mem_sublists.mpr h1
  have h2m : m2 ∈ U.sublists := List.mem_sublists.mpr h2
  have hb := (List.all_eq_true.mp ((List.all_eq_true.mp h) m1 h1m)) m2 h2m
  simp only [hk] at hb
  simp at hb
  exact hb

/-- A strictly ascending list whose members all lie in a strictly ascending
list is a sublist of it (canonical minterms over a sorted universe are
sublists of the universe). -/
theorem sorted_subset_sublist :
    ∀ (U m : List compiled_predicate), SortedM U → SortedM m →
      (∀ p ∈ m, p ∈ U) → m.Sublist U := by
  intro U
  induction U with
  | nil =>
    intro m _ _ hsub
    cases m with
    | nil => exact List.Sublist.refl []
    | cons p ps => exact absurd (hsub p (by simp)) (by simp)
  | cons u us ih =>
    intro m hU hm hsub
    rcases List.pairwise_cons.mp hU with ⟨hu, hus⟩
    cases m with
    | nil => exact List.nil_sublist _
    | cons p ps =>
      rcases List.pairwise_cons.mp hm with ⟨hp, hps⟩
      rcases List.mem_cons.mp (hsub p (by simp)) with hpu | hpu
      · subst hpu
        refine List.Sublist.cons₂ _ (ih ps hus hps ?_)
        intro q hq
        rcases List.mem_cons.mp (hsub q (by simp [hq])) with hqu | hqu
        · exfalso
          have hpq := hp q hq
          rw [hqu] at hpq
          simp [str_lt_irrefl] at hpq
        · exact hqu
      · refine List.Sublist.cons _ (ih (p :: ps) hus hm ?_)
        intro q hq
        rcases List.mem_cons.mp (hsub q hq) with hqu | hqu
        · exfalso
          have hup : str_lt (pkey u) (pkey p) = true := hu p hpu
          rcases List.mem_cons.mp hq with hqp | hqp
          · rw [hqp] at hqu
            rw [hqu] at hup
            simp [str_lt_irrefl] at hup
          · have hpq := hp q hqp
            rw [hqu] at hpq
            have := str_lt_trans hup hpq
            simp [str_lt_irrefl] at this
        · exact hqu

/-- `leaves_in` splits over a combinator node. -/
theorem leaves_in_comb {s : schema_t} {U : List compiled_predicate}
    {op : Int} {l r : utree} (h : leaves_in s U (utree.comb op l r) = true) :
    leaves_in s U l = true ∧ leaves_in s U r = true := by
  simp [leaves_in, leavesOf, List.all_append] at h
  simp [leaves_in]
  exact h

/-- `leaves_in` at a leaf puts the compiled predicate in the universe. -/
theorem leaves_in_leaf {s : schema_t} {U : List compiled_predicate}
    {op : Int} {attr value : String} {rop : reational_op_id}
    {p : compiled_predicate} (h : leaves_in s U (utree.leaf op attr value) = true)
    (hro : relop_of_code op = some rop)
    (hmk : mk_predicate attr rop value s = Except.ok p) : p ∈ U := by
  simp only [leaves_in, leavesOf, List.all_cons, List.all_nil,
    Bool.and_true] at h
  simp only [leaf_pred_in, hro, hmk] at h
  simpa using h

/-- Enlarging the universe preserves `leaves_in`. -/
theorem leaves_in_mono {s : schema_t} {U V : List compiled_predicate}
    (hUV : ∀ p, p ∈ U → p ∈ V) :
    ∀ t : utree, leaves_in s U t = true → leaves_in s V t = true := by
  intro t
  induction t with
  | leaf op attr value =>
    intro h
    simp only [leaves_in, leavesOf, List.all_cons, List.all_nil,
      Bool.and_true] at h ⊢
    simp only [leaf_pred_in] at h ⊢
    cases hro : relop_of_code op with
    | none => simp [hro]
    | some rop =>
      simp only [hro] at h ⊢
      cases hmk : mk_predicate attr rop value s with
      | error msg => simp [hmk]
      | ok p =>
        simp only [hmk] at h ⊢
        have : p ∈ U := by simpa using h
        simpa using hUV p this
  | comb op l r ihl ihr =>
    intro h
    have h2 := leaves_in_comb h
    simp only [leaves_in, leavesOf, List.all_append]
    have e1 := ihl h2.1
    have e2 := ihr h2.2
    simp only [leaves_in] at e1 e2
    simp [e1, e2]
  | func => intro h; simp [leaves_in, leavesOf]
  | unrecognized tyname => intro h; simp [leaves_in, leavesOf]

/-- Every AST's leaf predicates witness their own `leaves_in`. -/
theorem leaves_in_leafPreds (s : schema_t) :
    ∀ t : utree, leaves_in s (leafPreds s t) t = true := by
  intro t
  induction t with
  | leaf op attr value =>
    simp only [leaves_in, leavesOf, List.all_cons, List.all_nil, Bool.and_true]
    simp only [leaf_pred_in, leafPreds]
    cases hro : relop_of_code op with
    | none => simp [hro]
    | some rop =>
      simp only [hro]
      cases hmk : mk_predicate attr rop value s with
      | error msg => simp [hmk]
      | ok p => simp [hmk]
  | comb op l r ihl ihr =>
    simp only [leaves_in, leavesOf, List.all_append, leafPreds]
    have e1 := leaves_in_mono (U := leafPreds s l) (V := leafPreds s l ++ leafPreds s r)
      (fun p hp => by simp [hp]) l ihl
    have e2 := leaves_in_mono (U := leafPreds s r) (V := leafPreds s l ++ leafPreds s r)
      (fun p hp => by simp [hp]) r ihr
    simp only [leaves_in] at e1 e2
    simp [e1, e2]
  | func => simp [leaves_in, leavesOf]
  | unrecognized tyname => simp [leaves_in, leavesOf]

/-- The `AND`-case accumulation loop preserves the goodness invariant
(sorted expression of sorted minterms over the universe `U`). -/
theorem expandListGo_good (s : schema_t) (U : List compiled_predicate) (t : utree)
    (hexp : ∀ lm em, SortedM lm → (∀ p ∈ lm, p ∈ U) →
      utree_expand_conjunction s t lm = Except.ok em →
      SortedE em ∧ ∀ m2 ∈ em, SortedM m2 ∧ ∀ p ∈ m2, p ∈ U) :
    ∀ (ms : List compiled_minterm) (acc out : compiled_expression),
      (∀ lm ∈ ms, SortedM lm ∧ ∀ p ∈ lm, p ∈ U) →
      (SortedE acc ∧ ∀ m2 ∈ acc, SortedM m2 ∧ ∀ p ∈ m2, p ∈ U) →
      expandListGo (utree_expand_conjunction s t) ms acc = Except.ok out →
      SortedE out ∧ ∀ m2 ∈ out, SortedM m2 ∧ ∀ p ∈ m2, p ∈ U := by
  intro ms
  induction ms with
  | nil =>
    intro acc out _ hacc hgo
    simp only [expandListGo] at hgo
    injection hgo with hgo2
    rw [← hgo2]
    exact hacc
  | cons lm rest ih =>
    intro acc out hms hacc hgo
    simp only [expandListGo] at hgo
    cases hf : utree_expand_conjunction s t lm with
    | error msg =>
      rw [hf] at hgo
      exact Except.noConfusion hgo
    | ok tmp =>
      rw [hf] at hgo
      have h1 := hms lm (by simp)
      have htmp := hexp lm tmp h1.1 h1.2 hf
      refine ih (exp_union acc tmp) out (fun lm2 h2 => hms lm2 (by simp [h2])) ⟨?_, ?_⟩ hgo
      · exact exp_union_sorted acc tmp hacc.1 htmp.1
      · intro m2 hm2
        rcases mem_exp_union acc tmp m2 hm2 with h | h
        · exact hacc.2 m2 h
        · exact htmp.2 m2 h

/-- Goodness invariant of `utree_expand_conjunction`: from a sorted base
minterm over the universe, every produced expression is a sorted set of
sorted minterms whose predicates stay inside the universe. -/
theorem expand_good (s : schema_t) (U : List compiled_predicate) :
    ∀ (t : utree) (m : compiled_minterm) (em : compiled_expression),
      leaves_in s U t = true → SortedM m → (∀ p ∈ m, p ∈ U) →
      utree_expand_conjunction s t m = Except.ok em →
      SortedE em ∧ ∀ m2 ∈ em, SortedM m2 ∧ ∀ p ∈ m2, p ∈ U := by
  intro t
  induction t with
  | leaf op attr value =>
    intro m em hlv hsm hmU hok
    rw [uec_leaf] at hok
    cases hro : relop_of_code op with
    | none =>
      simp only [hro] at hok
      by_cases hc : (op == and_or.OR || op == and_or.AND) = true
      · rw [if_pos hc] at hok
        exact Except.noConfusion hok
      · rw [if_neg hc] at hok
        exact Except.noConfusion hok
    | some rop =>
      simp only [hro] at hok
      cases hmk : mk_predicate attr rop value s with
      | error msg =>
        rw [hmk] at hok
        exact Except.noConfusion hok
      | ok p =>
        rw [hmk] at hok
        injection hok with hok2
        rw [← hok2]
        constructor
        · exact List.pairwise_singleton _ _
        · intro m2 hm2
          rcases List.mem_singleton.mp hm2 with hm3
          rw [hm3]
          constructor
          · exact minsert_sorted m p hsm
          · intro q hq
            rcases mem_minsert m p q hq with h | h
            · rw [h]
              exact leaves_in_leaf hlv hro hmk
            · exact hmU q h
  | comb op l r ihl ihr =>
    intro m em hlv hsm hmU hok
    rw [uec_comb] at hok
    have hlv2 := leaves_in_comb hlv
    cases hro : relop_of_code op with
    | some rop =>
      simp only [hro] at hok
      exact Except.noConfusion hok
    | none =>
      simp only [hro] at hok
      by_cases hOR : (op == and_or.OR) = true
      · rw [if_pos hOR] at hok
        cases hfl : utree_expand_conjunction s l m with
        | error msg =>
          rw [hfl] at hok
          exact Except.noConfusion hok
        | ok left =>
          rw [hfl] at hok
          cases hfr : utree_expand_conjunction s r m with
          | error msg =>
            rw [hfr] at hok
            exact Except.noConfusion hok
          | ok right =>
            rw [hfr] at hok
            injection hok with hok2
            have hL := ihl m left hlv2.1 hsm hmU hfl
            have hR := ihr m right hlv2.2 hsm hmU hfr
            rw [← hok2]
            constructor
            · exact exp_union_sorted left right hL.1 hR.1
            · intro m2 hm2
              rcases mem_exp_union left right m2 hm2 with h | h
              · exact hL.2 m2 h
              · exact hR.2 m2 h
      · rw [if_neg hOR] at hok
        by_cases hAND : (op == and_or.AND) = true
        · rw [if_pos hAND] at hok
          cases hfl : utree_expand_conjunction s l m with
          | error msg =>
            rw [hfl] at hok
            exact Except.noConfusion hok
          | ok lor =>
            rw [hfl] at hok
            have hL := ihl m lor hlv2.1 hsm hmU hfl
            exact expandListGo_good s U r
              (fun lm em2 h1 h2 h3 => ihr lm em2 hlv2.2 h1 h2 h3)
              lor [] em (fun lm hlm => hL.2 lm hlm)
              ⟨List.Pairwise.nil, fun m2 hm2 => absurd hm2 (by simp)⟩ hok
        · rw [if_neg hAND] at hok
          exact Except.noConfusion hok
  | func =>
    intro m em _ _ _ hok
    rw [uec_func] at hok
    exact Except.noConfusion hok
  | unrecognized tyname =>
    intro m em _ _ _ hok
    rw [uec_unrecognized] at hok
    exact Except.noConfusion hok

/-- Goodness invariant of the top-level compile step. -/
theorem compile_good (s : schema_t) (U : List compiled_predicate) :
    ∀ (t : utree) (e : compiled_expression),
      leaves_in s U t = true →
      utree_compile_expression s t = Except.ok e →
      SortedE e ∧ ∀ m2 ∈ e, SortedM m2 ∧ ∀ p ∈ m2, p ∈ U := by
  intro t
  induction t with
  | leaf op attr value =>
    intro e hlv hok
    simp only [utree_compile_expression] at hok
    cases hro : relop_of_code op with
    | none =>
      simp only [hro] at hok
      by_cases hc : (op == and_or.OR || op == and_or.AND) = true
      · rw [if_pos hc] at hok
        exact Except.noConfusion hok
      · rw [if_neg hc] at hok
        exact Except.noConfusion hok
    | some rop =>
      simp only [hro] at hok
      cases hmk : mk_predicate attr rop value s with
      | error msg =>
        rw [hmk] at hok
        exact Except.noConfusion hok
      | ok p =>
        rw [hmk] at hok
        injection hok with hok2
        rw [← hok2]
        constructor
        · exact List.pairwise_singleton _ _
        · intro m2 hm2
          rcases List.mem_singleton.mp hm2 with hm3
          rw [hm3]
          constructor
          · exact minsert_sorted [] p List.Pairwise.nil
          · intro q hq
            rcases mem_minsert [] p q hq with h | h
            · rw [h]
              exact leaves_in_leaf hlv hro hmk
            · exact absurd h (by simp)
  | comb op l r ihl ihr =>
    intro e hlv hok
    simp only [utree_compile_expression] at hok
    have hlv2 := leaves_in_comb hlv
    cases hro : relop_of_code op with
    | some rop =>
      simp only [hro] at hok
      exact Except.noConfusion hok
    | none =>
      simp only [hro] at hok
      by_cases hOR : (op == and_or.OR) = true
      · rw [if_pos hOR] at hok
        cases hfl : utree_compile_expression s l with
        | error msg =>
          rw [hfl] at hok
          exact Except.noConfusion hok
        | ok left =>
          rw [hfl] at hok
          cases hfr : utree_compile_expression s r with
          | error msg =>
            rw [hfr] at hok
            exact Except.noConfusion hok
          | ok right =>
            rw [hfr] at hok
            injection hok with hok2
            have hL := ihl left hlv2.1 hfl
            have hR := ihr right hlv2.2 hfr
            rw [← hok2]
            constructor
            · exact exp_union_sorted left right hL.1 hR.1
            · intro m2 hm2
              rcases mem_exp_union left right m2 hm2 with h | h
              · exact hL.2 m2 h
              · exact hR.2 m2 h
      · rw [if_neg hOR] at hok
        by_cases hAND : (op == and_or.AND) = true
        · rw [if_pos hAND] at hok
          cases hfl : utree_compile_expression s l with
          | error msg =>
            rw [hfl] at hok
            exact Except.noConfusion hok
          | ok left =>
            rw [hfl] at hok
            have hL := ihl left hlv2.1 hfl
            exact expandListGo_good s U r
              (fun lm em2 h1 h2 h3 => expand_good s U r lm em2 hlv2.2 h1 h2 h3)
              left [] e (fun lm hlm => hL.2 lm hlm)
              ⟨List.Pairwise.nil, fun m2 hm2 => absurd hm2 (by simp)⟩ hok
        · rw [if_neg hAND] at hok
          exact Except.noConfusion hok
  | func =>
    intro e _ hok
    simp only [utree_compile_expression] at hok
    exact Except.noConfusion hok
  | unrecognized tyname =>
    intro e _ hok
    simp only [utree_compile_expression] at hok
    exact Except.noConfusion hok

/-- The accumulation loop never empties a nonempty start, and produces
nonempty output from a nonempty minterm list (given the per-minterm
expansion produces nonempty expressions). -/
theorem expandListGo_ne_nil (f : compiled_minterm → Except String compiled_expression)
    (hf : ∀ lm e2, f lm = Except.ok e2 → e2 ≠ []) :
    ∀ (ms : List compiled_minterm) (acc out : compiled_expression),
      expandListGo f ms acc = Except.ok out → (acc ≠ [] ∨ ms ≠ []) → out ≠ [] := by
  intro ms
  induction ms with
  | nil =>
    intro acc out hgo hne
    simp only [expandListGo] at hgo
    injection hgo with hgo2
    rw [← hgo2]
    rcases hne with h | h
    · exact h
    · exact absurd rfl h
  | cons lm rest ih =>
    intro acc out hgo _
    simp only [expandListGo] at hgo
    cases hfe : f lm with
    | error msg =>
      rw [hfe] at hgo
      exact Except.noConfusion hgo
    | ok tmp =>
      rw [hfe] at hgo
      refine ih (exp_union acc tmp) out hgo (Or.inl ?_)
      intro hc
      exact hf lm tmp hfe ((exp_union_eq_nil acc tmp).mp hc).2

/-- A successful expansion is never the empty expression. -/
theorem expand_ne_nil (s : schema_t) :
    ∀ (t : utree) (m : compiled_minterm) (em : compiled_expression),
      utree_expand_conjunction s t m = Except.ok em → em ≠ [] := by
  intro t
  induction t with
  | leaf op attr value =>
    intro m em hok
    rw [uec_leaf] at hok
    cases hro : relop_of_code op with
    | none =>
      simp only [hro] at hok
      by_cases hc : (op == and_or.OR || op == and_or.AND) = true
      · rw [if_pos hc] at hok
        exact Except.noConfusion hok
      · rw [if_neg hc] at hok
        exact Except.noConfusion hok
    | some rop =>
      simp only [hro] at hok
      cases hmk : mk_predicate attr rop value s with
      | error msg =>
        rw [hmk] at hok
        exact Except.noConfusion hok
      | ok p =>
        rw [hmk] at hok
        injection hok with hok2
        rw [← hok2]
        simp
  | comb op l r ihl ihr =>
    intro m em hok
    rw [uec_comb] at hok
    cases hro : relop_of_code op with
    | some rop =>
      simp only [hro] at hok
      exact Except.noConfusion hok
    | none =>
      simp only [hro] at hok
      by_cases hOR : (op == and_or.OR) = true
      · rw [if_pos hOR] at hok
        cases hfl : utree_expand_conjunction s l m with
        | error msg =>
          rw [hfl] at hok
          exact Except.noConfusion hok
        | ok left =>
          rw [hfl] at hok
          cases hfr : utree_expand_conjunction s r m with
          | error msg =>
            rw [hfr] at hok
            exact Except.noConfusion hok
          | ok right =>
            rw [hfr] at hok
            injection hok with hok2
            rw [← hok2]
            intro hc
            exact ihl m left hfl ((exp_union_eq_nil left right).mp hc).1
      · rw [if_neg hOR] at hok
        by_cases hAND : (op == and_or.AND) = true
        · rw [if_pos hAND] at hok
          cases hfl : utree_expand_conjunction s l m with
          | error msg =>
            rw [hfl] at hok
            exact Except.noConfusion hok
          | ok lor =>
            rw [hfl] at hok
            refine expandListGo_ne_nil (utree_expand_conjunction s r)
              (fun lm e2 h2 => ihr lm e2 h2) lor [] em hok (Or.inr ?_)
            exact ihl m lor hfl
        · rw [if_neg hAND] at hok
          exact Except.noConfusion hok
  | func =>
    intro m em hok
    rw [uec_func] at hok
    exact Except.noConfusion hok
  | unrecognized tyname =>
    intro m em hok
    rw [uec_unrecognized] at hok
    exact Except.noConfusion hok

/-- A successful compilation is never the empty expression (the empty
always-match sentinel is not producible by `compile`). -/
theorem compile_ne_nil (s : schema_t) :
    ∀ (t : utree) (e : compiled_expression),
      utree_compile_expression s t = Except.ok e → e ≠ [] := by
  intro t
  induction t with
  | leaf op attr value =>
    intro e hok
    simp only [utree_compile_expression] at hok
    cases hro : relop_of_code op with
    | none =>
      simp only [hro] at hok
      by_cases hc : (op == and_or.OR || op == and_or.AND) = true
      · rw [if_pos hc] at hok
        exact Except.noConfusion hok
      · rw [if_neg hc] at hok
        exact Except.noConfusion hok
    | some rop =>
      simp only [hro] at hok
      cases hmk : mk_predicate attr rop value s with
      | error msg =>
        rw [hmk] at hok
        exact Except.noConfusion hok
      | ok p =>
        rw [hmk] at hok
        injection hok with hok2
        rw [← hok2]
        simp
  | comb op l r ihl ihr =>
    intro e hok
    simp only [utree_compile_expression] at hok
    cases hro : relop_of_code op with
    | some rop =>
      simp only [hro] at hok
      exact Except.noConfusion hok
    | none =>
      simp only [hro] at hok
      by_cases hOR : (op == and_or.OR) = true
      · rw [if_pos hOR] at hok
        cases hfl : utree_compile_expression s l with
        | error msg =>
          rw [hfl] at hok
          exact Except.noConfusion hok
        | ok left =>
          rw [hfl] at hok
          cases hfr : utree_compile_expression s r with
          | error msg =>
            rw [hfr] at hok
            exact Except.noConfusion hok
          | ok right =>
            rw [hfr] at hok
            injection hok with hok2
            rw [← hok2]
            intro hc
            exact ihl left hfl ((exp_union_eq_nil left right).mp hc).1
      · rw [if_neg hOR] at hok
        by_cases hAND : (op == and_or.AND) = true
        · rw [if_pos hAND] at hok
          cases hfl : utree_compile_expression s l with
          | error msg =>
            rw [hfl] at hok
            exact Except.noConfusion hok
          | ok left =>
            rw [hfl] at hok
            refine expandListGo_ne_nil (utree_expand_conjunction s r)
              (fun lm e2 h2 => expand_ne_nil s r lm e2 h2) left [] e hok (Or.inr ?_)
            exact ihl left hfl
        · rw [if_neg hAND] at hok
          exact Except.noConfusion hok
  | func =>
    intro e hok
    simp only [utree_compile_expression] at hok
    exact Except.noConfusion hok
  | unrecognized tyname =>
    intro e hok
    simp only [utree_compile_expression] at hok
    exact Except.noConfusion hok

/-- The accumulation loop succeeds exactly when every per-minterm expansion
succeeds. -/
theorem expandListGo_ok_iff (f : compiled_minterm → Except String compiled_expression) :
    ∀ (ms : List compiled_minterm) (acc : compiled_expression),
      (∃ out, expandListGo f ms acc = Except.ok out) ↔
        ∀ lm ∈ ms, ∃ e2, f lm = Except.ok e2 := by
  intro ms
  induction ms with
  | nil =>
    intro acc
    constructor
    · intro _ lm hlm
      exact absurd hlm (by simp)
    · intro _
      exact ⟨acc, rfl⟩
  | cons lm rest ih =>
    intro acc
    constructor
    · intro hout lm2 hlm2
      rcases hout with ⟨out, hgo⟩
      simp only [expandListGo] at hgo
      cases hfe : f lm with
      | error msg =>
        rw [hfe] at hgo
        exact Except.noConfusion hgo
      | ok tmp =>
        rw [hfe] at hgo
        rcases List.mem_cons.mp hlm2 with h | h
        · rw [h]
          exact ⟨tmp, hfe⟩
        · exact ((ih (exp_union acc tmp)).mp ⟨out, hgo⟩) lm2 h
    · intro hall
      rcases hall lm (by simp) with ⟨tmp, hfe⟩
      rcases (ih (exp_union acc tmp)).mpr (fun lm2 h2 => hall lm2 (by simp [h2])) with ⟨out, hgo⟩
      refine ⟨out, ?_⟩
      simp only [expandListGo]
      rw [hfe]
      exact hgo

/-- Expansion against a base minterm succeeds exactly when top-level
compilation of the same subtree succeeds (success never depends on the
carried minterm). -/
theorem expand_ok_iff_compile_ok (s : schema_t) :
    ∀ (t : utree) (m : compiled_minterm),
      (∃ em, utree_expand_conjunction s t m = Except.ok em) ↔
        (∃ e, utree_compile_expression s t = Except.ok e) := by
  intro t
  induction t with
  | leaf op attr value =>
    intro m
    simp only [uec_leaf, utree_compile_expression]
    cases hro : relop_of_code op with
    | none => simp only [hro]
    | some rop =>
      simp only [hro]
      cases hmk : mk_predicate attr rop value s with
      | error msg => simp [hmk]
      | ok p => simp [hmk]
  | comb op l r ihl ihr =>
    intro m
    simp only [uec_comb, utree_compile_expression]
    cases hro : relop_of_code op with
    | some rop => simp only [hro]
    | none =>
      simp only [hro]
      by_cases hOR : (op == and_or.OR) = true
      · simp only [if_pos hOR]
        constructor
        · rintro ⟨em, hx⟩
          cases hfl : utree_expand_conjunction s l m with
          | error msg =>
            rw [hfl] at hx
            exact Except.noConfusion hx
          | ok left =>
            rw [hfl] at hx
            cases hfr : utree_expand_conjunction s r m with
            | error msg =>
              rw [hfr] at hx
              exact Except.noConfusion hx
            | ok right =>
              rcases (ihl m).mp ⟨left, hfl⟩ with ⟨cl, hcl⟩
              rcases (ihr m).mp ⟨right, hfr⟩ with ⟨cr, hcr⟩
              rw [hcl, hcr]
              exact ⟨exp_union cl cr, rfl⟩
        · rintro ⟨e, hx⟩
          cases hfl : utree_compile_expression s l with
          | error msg =>
            rw [hfl] at hx
            exact Except.noConfusion hx
          | ok cl =>
            rw [hfl] at hx
            cases hfr : utree_compile_expression s r with
            | error msg =>
              rw [hfr] at hx
              exact Except.noConfusion hx
            | ok cr =>
              rcases (ihl m).mpr ⟨cl, hfl⟩ with ⟨left, hel⟩
              rcases (ihr m).mpr ⟨cr, hfr⟩ with ⟨right, her⟩
              rw [hel, her]
              exact ⟨exp_union left right, rfl⟩
      · simp only [if_neg hOR]
        by_cases hAND : (op == and_or.AND) = true
        · simp only [if_pos hAND]
          constructor
          · rintro ⟨em, hx⟩
            cases hfl : utree_expand_conjunction s l m with
            | error msg =>
              rw [hfl] at hx
              exact Except.noConfusion hx
            | ok lor =>
              rw [hfl] at hx
              rcases (ihl m).mp ⟨lor, hfl⟩ with ⟨cl, hcl⟩
              rw [hcl]
              apply (expandListGo_ok_iff (utree_expand_conjunction s r) cl []).mpr
              intro lm hlm
              have hlor_ne : lor ≠ [] := expand_ne_nil s l m lor hfl
              obtain ⟨lm0, hlm0⟩ : ∃ lm0, lm0 ∈ lor := by
                cases lor with
                | nil => exact absurd rfl hlor_ne
                | cons a as => exact ⟨a, by simp⟩
              have h0 := (expandListGo_ok_iff (utree_expand_conjunction s r) lor []).mp
                ⟨em, hx⟩ lm0 hlm0
              exact (ihr lm).mpr ((ihr lm0).mp h0)
          · rintro ⟨e, hx⟩
            cases hfl : utree_compile_expression s l with
            | error msg =>
              rw [hfl] at hx
              exact Except.noConfusion hx
            | ok cl =>
              rw [hfl] at hx
              rcases (ihl m).mpr ⟨cl, hfl⟩ with ⟨lor, hel⟩
              rw [hel]
              apply (expandListGo_ok_iff (utree_expand_conjunction s r) lor []).mpr
              intro lm hlm
              have hcl_ne : cl ≠ [] := compile_ne_nil s l cl hfl
              obtain ⟨lm0, hlm0⟩ : ∃ lm0, lm0 ∈ cl := by
                cases cl with
                | nil => exact absurd rfl hcl_ne
                | cons a as => exact ⟨a, by simp⟩
              have h0 := (expandListGo_ok_iff (utree_expand_conjunction s r) cl []).mp
                ⟨e, hx⟩ lm0 hlm0
              exact (ihr lm).mpr ((ihr lm0).mp h0)
        · simp only [if_neg hAND]
  | func =>
    intro m
    simp only [uec_func, utree_compile_expression]
  | unrecognized tyname =>
    intro m
    simp only [uec_unrecognized, utree_compile_expression]

/-- The expression test loop on a cons is the disjunction with the head. -/
theorem ce_loop_cons (m : compiled_minterm) (ms : List compiled_minterm)
    (r : record_t) :
    ce_loop (m :: ms) r = (compiled_minterm.test m r || ce_loop ms r) := by
  cases h : compiled_minterm.test m r with
  | false => simp [ce_loop, h]
  | true => simp [ce_loop, h]

/-- Under collision-freedom, inserting a predicate into a minterm over the
universe conjoins its test (the no-op case drops a predicate that is equal,
not merely equal-keyed). -/
theorem minsert_test (U : List compiled_predicate) (hF : FaithfulB U = true) :
    ∀ (m : compiled_minterm) (p : compiled_predicate) (r : record_t),
      p ∈ U → (∀ q ∈ m, q ∈ U) →
      compiled_minterm.test (minsert m p) r =
        (compiled_minterm.test m r && compiled_predicate.test p r) := by
  intro m
  induction m with
  | nil =>
    intro p r _ _
    cases h : compiled_predicate.test p r <;>
      simp [minsert, compiled_minterm.test, h]
  | cons q qs ih =>
    intro p r hpU hmU
    simp only [minsert]
    rcases str_lt_trichotomy (pkey p) (pkey q) with hpq | ⟨hpq, hqp, hkeq⟩ | hqp
    · rw [if_pos hpq]
      simp only [minterm_test_eq_all, List.all_cons]
      cases ht : compiled_predicate.test p r <;>
        cases hq : compiled_predicate.test q r <;> simp [ht, hq]
    · have hnpq : ¬ (str_lt (pkey p) (pkey q) = true) := by simp [hpq]
      have hnqp : ¬ (str_lt (pkey q) (pkey p) = true) := by simp [hqp]
      rw [if_neg hnpq, if_neg hnqp]
      have hkm : mkey [p] = mkey [q] := by
        have hkeq2 : compiled_predicate.to_string p = compiled_predicate.to_string q := hkeq
        simp only [mkey, compiled_minterm.to_string, mts_aux]
        rw [hkeq2]
      have hsng : ([p] : compiled_minterm) = [q] :=
        faithfulB_spec hF [p] [q] (List.singleton_sublist.mpr hpU)
          (List.singleton_sublist.mpr (hmU q (by simp))) hkm
      have hpq2 : p = q := by injection hsng
      rw [hpq2]
      cases hqt : compiled_predicate.test q r <;>
        cases hqs : compiled_minterm.test qs r <;>
          simp [compiled_minterm.test, hqt, hqs]
    · have hnpq : ¬ (str_lt (pkey p) (pkey q) = true) := by
        simp [str_lt_asymm hqp]
      rw [if_neg hnpq, if_pos hqp]
      have ihv := ih p r hpU (fun q2 h2 => hmU q2 (by simp [h2]))
      cases hqt : compiled_predicate.test q r with
      | false => simp [compiled_minterm.test, hqt]
      | true => simp [compiled_minterm.test, hqt, ihv]

/-- Under collision-freedom, the deduplicating merge computes the
disjunction of the two tests: dropping an equivalent-keyed duplicate drops
an equal minterm. -/
theorem exp_union_loop (U : List compiled_predicate) (hUs : SortedM U)
    (hF : FaithfulB U = true) :
    ∀ (a b : compiled_expression) (r : record_t),
      (∀ x ∈ a, SortedM x ∧ ∀ p ∈ x, p ∈ U) →
      (∀ x ∈ b, SortedM x ∧ ∀ p ∈ x, p ∈ U) →
      ce_loop (exp_union a b) r = (ce_loop a r || ce_loop b r) := by
  intro a
  induction a with
  | nil =>
    intro b r _ _
    rw [exp_union_nil_left]
    simp [ce_loop]
  | cons x xs iha =>
    intro b
    induction b with
    | nil =>
      intro r _ _
      rw [exp_union_nil_right]
      simp [ce_loop]
    | cons y ys ihb =>
      intro r ha hb
      rw [exp_union_cons]
      rcases str_lt_trichotomy (mkey y) (mkey x) with hyx | ⟨hyx, hxy, heq⟩ | hxy
      · rw [if_pos hyx]
        rw [ce_loop_cons y (exp_union (x :: xs) ys) r]
        rw [ihb r ha (fun z hz => hb z (by simp [hz]))]
        rw [ce_loop_cons x xs r, ce_loop_cons y ys r]
        cases h1 : compiled_minterm.test y r <;>
          cases h2 : compiled_minterm.test x r <;>
            simp [h1, h2, Bool.or_comm]
      · have hnyx : ¬ (str_lt (mkey y) (mkey x) = true) := by simp [hyx]
        have hnxy : ¬ (str_lt (mkey x) (mkey y) = true) := by simp [hxy]
        rw [if_neg hnyx, if_neg hnxy]
        have hxg := ha x (by simp)
        have hyg := hb y (by simp)
        have hxe : x = y :=
          faithfulB_spec hF x y
            (sorted_subset_sublist U x hUs hxg.1 hxg.2)
            (sorted_subset_sublist U y hUs hyg.1 hyg.2) heq.symm
        rw [ce_loop_cons x (exp_union xs ys) r]
        rw [iha ys r (fun z hz => ha z (by simp [hz])) (fun z hz => hb z (by simp [hz]))]
        rw [ce_loop_cons x xs r, ce_loop_cons y ys r]
        rw [← hxe]
        cases h1 : compiled_minterm.test x r <;>
          cases h2 : ce_loop xs r <;> simp [h1, h2]
      · have hnyx : ¬ (str_lt (mkey y) (mkey x) = true) := by
          simp [str_lt_asymm hxy]
        rw [if_neg hnyx, if_pos hxy]
        rw [ce_loop_cons x (exp_union xs (y :: ys)) r]
        rw [iha (y :: ys) r (fun z hz => ha z (by simp [hz])) hb]
        rw [ce_loop_cons x xs r]
        cases h1 : compiled_minterm.test x r <;> simp [h1, Bool.or_assoc]

/-- Under collision-freedom, the `AND`-case accumulation loop ORs into the
accumulator the conjunction of the minterm-list test with the right-hand
subtree's compiled test. -/
theorem expandListGo_test (s : schema_t) (U : List compiled_predicate)
    (hUs : SortedM U) (hF : FaithfulB U = true) (t : utree)
    (cr : compiled_expression) (r : record_t)
    (hgood : ∀ lm em, SortedM lm → (∀ p ∈ lm, p ∈ U) →
      utree_expand_conjunction s t lm = Except.ok em →
      SortedE em ∧ ∀ m2 ∈ em, SortedM m2 ∧ ∀ p ∈ m2, p ∈ U)
    (hsem : ∀ lm em, SortedM lm → (∀ p ∈ lm, p ∈ U) →
      utree_expand_conjunction s t lm = Except.ok em →
      ce_loop em r = (compiled_minterm.test lm r && ce_loop cr r)) :
    ∀ (ms : List compiled_minterm) (acc out : compiled_expression),
      (∀ lm ∈ ms, SortedM lm ∧ ∀ p ∈ lm, p ∈ U) →
      (SortedE acc ∧ ∀ m2 ∈ acc, SortedM m2 ∧ ∀ p ∈ m2, p ∈ U) →
      expandListGo (utree_expand_conjunction s t) ms acc = Except.ok out →
      ce_loop out r =
        (ce_loop acc r ||
          (ms.any (fun lm => compiled_minterm.test lm r) && ce_loop cr r)) := by
  intro ms
  induction ms with
  | nil =>
    intro acc out _ _ hgo
    simp only [expandListGo] at hgo
    injection hgo with h2
    rw [← h2]
    simp
  | cons lm rest ih =>
    intro acc out hms hacc hgo
    simp only [expandListGo] at hgo
    cases hfe : utree_expand_conjunction s t lm with
    | error msg =>
      rw [hfe] at hgo
      exact Except.noConfusion hgo
    | ok tmp =>
      rw [hfe] at hgo
      have h1 := hms lm (by simp)
      have htmp_good := hgood lm tmp h1.1 h1.2 hfe
      have htmp_sem := hsem lm tmp h1.1 h1.2 hfe
      have hacc2 : SortedE (exp_union acc tmp) ∧
          ∀ m2 ∈ exp_union acc tmp, SortedM m2 ∧ ∀ p ∈ m2, p ∈ U := by
        constructor
        · exact exp_union_sorted acc tmp hacc.1 htmp_good.1
        · intro m2 hm2
          rcases mem_exp_union acc tmp m2 hm2 with h | h
          · exact hacc.2 m2 h
          · exact htmp_good.2 m2 h
      rw [ih (exp_union acc tmp) out (fun lm2 h2 => hms lm2 (by simp [h2])) hacc2 hgo]
      rw [exp_union_loop U hUs hF acc tmp r hacc.2 htmp_good.2]
      rw [htmp_sem]
      cases hc : ce_loop cr r <;> cases ht : compiled_minterm.test lm r <;>
        simp [hc, ht, List.any_cons, Bool.or_assoc]

/-- Core semantics of the DNF distribution under collision-freedom: the
expansion of a subtree against a base minterm tests as the conjunction of
the base minterm's test and the subtree's own compiled test. -/
theorem expand_compile_test (s : schema_t) (U : List compiled_predicate)
    (hUs : SortedM U) (hF : FaithfulB U = true) :
    ∀ (t : utree) (m : compiled_minterm) (em e : compiled_expression)
      (r0 : record_t),
      leaves_in s U t = true → SortedM m → (∀ p ∈ m, p ∈ U) →
      utree_expand_conjunction s t m = Except.ok em →
      utree_compile_expression s t = Except.ok e →
      ce_loop em r0 = (compiled_minterm.test m r0 && ce_loop e r0) := by
  intro t
  induction t with
  | leaf op attr value =>
    intro m em e r0 hlv hsm hmU hexp hcmp
    rw [uec_leaf] at hexp
    simp only [utree_compile_expression] at hcmp
    cases hro : relop_of_code op with
    | none =>
      simp only [hro] at hexp
      by_cases hc : (op == and_or.OR || op == and_or.AND) = true
      · rw [if_pos hc] at hexp
        exact Except.noConfusion hexp
      · rw [if_neg hc] at hexp
        exact Except.noConfusion hexp
    | some rop =>
      simp only [hro] at hexp hcmp
      cases hmk : mk_predicate attr rop value s with
      | error msg =>
        rw [hmk] at hexp
        exact Except.noConfusion hexp
      | ok p =>
        rw [hmk] at hexp hcmp
        injection hexp with hexp2
        injection hcmp with hcmp2
        rw [← hexp2, ← hcmp2]
        have hpU : p ∈ U := leaves_in_leaf hlv hro hmk
        rw [ce_loop_cons (minsert m p) [] r0, ce_loop_cons (minsert [] p) [] r0]
        rw [minsert_test U hF m p r0 hpU hmU]
        rw [minsert_test U hF [] p r0 hpU (fun q hq => absurd hq (by simp))]
        cases h1 : compiled_minterm.test m r0 <;>
          cases h2 : compiled_predicate.test p r0 <;>
            simp [compiled_minterm.test, ce_loop, h1, h2]
  | comb op l r ihl ihr =>
    intro m em e r0 hlv hsm hmU hexp hcmp
    rw [uec_comb] at hexp
    simp only [utree_compile_expression] at hcmp
    have hlv2 := leaves_in_comb hlv
    cases hro : relop_of_code op with
    | some rop =>
      simp only [hro] at hexp
      exact Except.noConfusion hexp
    | none =>
      simp only [hro] at hexp hcmp
      by_cases hOR : (op == and_or.OR) = true
      · rw [if_pos hOR] at hexp hcmp
        cases hfl : utree_expand_conjunction s l m with
        | error msg =>
          rw [hfl] at hexp
          exact Except.noConfusion hexp
        | ok exl =>
          rw [hfl] at hexp
          cases hfr : utree_expand_conjunction s r m with
          | error msg =>
            rw [hfr] at hexp
            exact Except.noConfusion hexp
          | ok exr =>
            rw [hfr] at hexp
            injection hexp with hexp2
            cases hgl : utree_compile_expression s l with
            | error msg =>
              rw [hgl] at hcmp
              exact Except.noConfusion hcmp
            | ok cl =>
              rw [hgl] at hcmp
              cases hgr : utree_compile_expression s r with
              | error msg =>
                rw [hgr] at hcmp
                exact Except.noConfusion hcmp
              | ok cr =>
                rw [hgr] at hcmp
                injection hcmp with hcmp2
                rw [← hexp2, ← hcmp2]
                have hexlg := expand_good s U l m exl hlv2.1 hsm hmU hfl
                have hexrg := expand_good s U r m exr hlv2.2 hsm hmU hfr
                have hclg := compile_good s U l cl hlv2.1 hgl
                have hcrg := compile_good s U r cr hlv2.2 hgr
                rw [exp_union_loop U hUs hF exl exr r0 hexlg.2 hexrg.2]
                rw [exp_union_loop U hUs hF cl cr r0 hclg.2 hcrg.2]
                rw [ihl m exl cl r0 hlv2.1 hsm hmU hfl hgl]
                rw [ihr m exr cr r0 hlv2.2 hsm hmU hfr hgr]
                cases h1 : compiled_minterm.test m r0 <;>
                  cases h2 : ce_loop cl r0 <;> simp [h1, h2]
      · rw [if_neg hOR] at hexp hcmp
        by_cases hAND : (op == and_or.AND) = true
        · rw [if_pos hAND] at hexp hcmp
          cases hfl : utree_expand_conjunction s l m with
          | error msg =>
            rw [hfl] at hexp
            exact Except.noConfusion hexp
          | ok lor =>
            rw [hfl] at hexp
            cases hgl : utree_compile_expression s l with
            | error msg =>
              rw [hgl] at hcmp
              exact Except.noConfusion hcmp
            | ok cl =>
              rw [hgl] at hcmp
              have hcl_ne : cl ≠ [] := compile_ne_nil s l cl hgl
              obtain ⟨lm0, hlm0⟩ : ∃ lm0, lm0 ∈ cl := by
                cases cl with
                | nil => exact absurd rfl hcl_ne
                | cons a as => exact ⟨a, by simp⟩
              have h0 := (expandListGo_ok_iff (utree_expand_conjunction s r) cl []).mp
                ⟨e, hcmp⟩ lm0 hlm0
              obtain ⟨cr, hcr⟩ := (expand_ok_iff_compile_ok s r lm0).mp h0
              have hgood_r : ∀ lm em2, SortedM lm → (∀ p ∈ lm, p ∈ U) →
                  utree_expand_conjunction s r lm = Except.ok em2 →
                  SortedE em2 ∧ ∀ m2 ∈ em2, SortedM m2 ∧ ∀ p ∈ m2, p ∈ U :=
                fun lm em2 h1 h2 h3 => expand_good s U r lm em2 hlv2.2 h1 h2 h3
              have hsem_r : ∀ lm em2, SortedM lm → (∀ p ∈ lm, p ∈ U) →
                  utree_expand_conjunction s r lm = Except.ok em2 →
                  ce_loop em2 r0 = (compiled_minterm.test lm r0 && ce_loop cr r0) :=
                fun lm em2 h1 h2 h3 => ihr lm em2 cr r0 hlv2.2 h1 h2 h3 hcr
              have hlorg := expand_good s U l m lor hlv2.1 hsm hmU hfl
              have hclg := compile_good s U l cl hlv2.1 hgl
              have hem := expandListGo_test s U hUs hF r cr r0 hgood_r hsem_r
                lor [] em hlorg.2
                ⟨List.Pairwise.nil, fun m2 hm2 => absurd hm2 (by simp)⟩ hexp
              have he := expandListGo_test s U hUs hF r cr r0 hgood_r hsem_r
                cl [] e hclg.2
                ⟨List.Pairwise.nil, fun m2 hm2 => absurd hm2 (by simp)⟩ hcmp
              rw [hem, he]
              have hlor_loop : lor.any (fun lm => compiled_minterm.test lm r0) =
                  ce_loop lor r0 := (ce_loop_eq_any lor r0).symm
              have hcl_loop : cl.any (fun lm => compiled_minterm.test lm r0) =
                  ce_loop cl r0 := (ce_loop_eq_any cl r0).symm
              rw [hlor_loop, hcl_loop]
              rw [ihl m lor cl r0 hlv2.1 hsm hmU hfl hgl]
              cases h1 : compiled_minterm.test m r0 <;>
                cases h2 : ce_loop cl r0 <;> simp [ce_loop, h1, h2]
        · rw [if_neg hAND] at hexp
          exact Except.noConfusion hexp
  | func =>
    intro m em e r0 _ _ _ hexp _
    rw [uec_func] at hexp
    exact Except.noConfusion hexp
  | unrecognized tyname =>
    intro m em e r0 _ _ _ hexp _
    rw [uec_unrecognized] at hexp
    exact Except.noConfusion hexp

/-- `leaves_in` is rebuilt over a combinator node from its halves. -/
theorem leaves_in_comb_intro {s : schema_t} {U : List compiled_predicate}
    {op : Int} {l r : utree} (hl : leaves_in s U l = true)
    (hr : leaves_in s U r = true) : leaves_in s U (utree.comb op l r) = true := by
  simp only [leaves_in, leavesOf, List.all_append]
  simp only [leaves_in] at hl hr
  simp [hl, hr]

/-- C1 (amended): distribution correctness under collision-freedom of the
canonical string form.  For ASTs `A`, `B`, `C` whose leaf predicates live in
a strictly sorted universe `U` over which distinct canonical minterms have
distinct canonical strings (`FaithfulB U`), and which compile without error,
testing the compiled `AND(A, OR(B, C))` on any record agrees with the
boolean combination of the separately compiled parts:
`compile(AND(A, OR(B, C))).test(r) = compile(A).test(r) AND
(compile(B).test(r) OR compile(C).test(r))`.  The collision-freedom
hypothesis is forced by `c1_and_or_distribution_counterexample`: when two
distinct minterms share a canonical string, the string-keyed set containers
deduplicate them and the unrestricted claim fails. -/
theorem c1_and_or_distribution (s : schema_t) (U : List compiled_predicate)
    (A B C : utree) (ea eb ec e : compiled_expression) (r : record_t)
    (hUs : SortedM U) (hF : FaithfulB U = true)
    (hlvA : leaves_in s U A = true) (hlvB : leaves_in s U B = true)
    (hlvC : leaves_in s U C = true)
    (hA : utree_compile_expression s A = Except.ok ea)
    (hB : utree_compile_expression s B = Except.ok eb)
    (hC : utree_compile_expression s C = Except.ok ec)
    (hE : utree_compile_expression s
      (utree.comb and_or.AND A (utree.comb and_or.OR B C)) = Except.ok e) :
    compiled_expression.test e r =
      (compiled_expression.test ea r &&
        (compiled_expression.test eb r || compiled_expression.test ec r)) := by
  have hE2 : (match utree_compile_expression s A with
      | Except.error msg => Except.error msg
      | Except.ok left =>
        expandListGo (utree_expand_conjunction s (utree.comb and_or.OR B C))
          left []) = Except.ok e := hE
  rw [hA] at hE2
  have hBC : utree_compile_expression s (utree.comb and_or.OR B C) =
      (match utree_compile_expression s B with
       | Except.error msg => Except.error msg
       | Except.ok left =>
         match utree_compile_expression s C with
         | Except.error msg => Except.error msg
         | Except.ok right => Except.ok (exp_union left right)) := rfl
  have hBC2 : utree_compile_expression s (utree.comb and_or.OR B C) =
      Except.ok (exp_union eb ec) := by
    rw [hBC, hB, hC]
  have hlvBC : leaves_in s U (utree.comb and_or.OR B C) = true :=
    leaves_in_comb_intro hlvB hlvC
  have hgood_r : ∀ lm em2, SortedM lm → (∀ p ∈ lm, p ∈ U) →
      utree_expand_conjunction s (utree.comb and_or.OR B C) lm = Except.ok em2 →
      SortedE em2 ∧ ∀ m2 ∈ em2, SortedM m2 ∧ ∀ p ∈ m2, p ∈ U :=
    fun lm em2 h1 h2 h3 =>
      expand_good s U (utree.comb and_or.OR B C) lm em2 hlvBC h1 h2 h3
  have hsem_r : ∀ lm em2, SortedM lm → (∀ p ∈ lm, p ∈ U) →
      utree_expand_conjunction s (utree.comb and_or.OR B C) lm = Except.ok em2 →
      ce_loop em2 r = (compiled_minterm.test lm r && ce_loop (exp_union eb ec) r) :=
    fun lm em2 h1 h2 h3 =>
      expand_compile_test s U hUs hF (utree.comb and_or.OR B C) lm em2
        (exp_union eb ec) r hlvBC h1 h2 h3 hBC2
  have heA_good := compile_good s U A ea hlvA hA
  have hL := expandListGo_test s U hUs hF (utree.comb and_or.OR B C)
    (exp_union eb ec) r hgood_r hsem_r ea [] e heA_good.2
    ⟨List.Pairwise.nil, fun m2 hm2 => absurd hm2 (by simp)⟩ hE2
  have hebg := compile_good s U B eb hlvB hB
  have hecg := compile_good s U C ec hlvC hC
  rw [exp_union_loop U hUs hF eb ec r hebg.2 hecg.2] at hL
  have hea_any : ea.any (fun lm => compiled_minterm.test lm r) = ce_loop ea r :=
    (ce_loop_eq_any ea r).symm
  rw [hea_any] at hL
  have hene : e ≠ [] :=
    compile_ne_nil s (utree.comb and_or.AND A (utree.comb and_or.OR B C)) e hE
  have heane : ea ≠ [] := compile_ne_nil s A ea hA
  have hebne : eb ≠ [] := compile_ne_nil s B eb hB
  have hecne : ec ≠ [] := compile_ne_nil s C ec hC
  rw [ce_test_of_ne_nil hene r, ce_test_of_ne_nil heane r,
    ce_test_of_ne_nil hebne r, ce_test_of_ne_nil hecne r]
  rw [hL]
  simp [ce_loop]

/-- Strictly smaller canonical strings are different. -/
theorem str_lt_ne {a b : String} (h : str_lt a b = true) : a ≠ b := by
  intro heq
  rw [heq] at h
  simp [str_lt_irrefl] at h

/-- Decoding inverts the relational operator codes. -/
theorem relop_of_code_code (rop : reational_op_id) :
    relop_of_code (relop_code rop) = some rop := by
  cases rop <;> rfl

/-- The `AND` combinator code is not a relational code. -/
theorem relop_of_code_AND : relop_of_code and_or.AND = none := rfl

/-- The `OR` combinator code is not a relational code. -/
theorem relop_of_code_OR : relop_of_code and_or.OR = none := rfl

/-- Insertion of a predicate whose canonical string is already present is a
no-op (the `std::set` keeps the existing element). -/
theorem minsert_noop :
    ∀ (m : compiled_minterm) (p q : compiled_predicate), SortedM m →
      q ∈ m → pkey q = pkey p → minsert m p = m := by
  intro m
  induction m with
  | nil =>
    intro p q _ hq _
    exact absurd hq (by simp)
  | cons h0 hs ih =>
    intro p q hsm hq hk
    rcases List.pairwise_cons.mp hsm with ⟨hh0, hhs⟩
    rcases List.mem_cons.mp hq with hq0 | hq0
    · have hk0 : pkey p = pkey h0 := by rw [← hk, hq0]
      simp only [minsert]
      have h1 : ¬ (str_lt (pkey p) (pkey h0) = true) := by
        rw [hk0]
        simp [str_lt_irrefl]
      have h2 : ¬ (str_lt (pkey h0) (pkey p) = true) := by
        rw [hk0]
        simp [str_lt_irrefl]
      rw [if_neg h1, if_neg h2]
    · have hlt : str_lt (pkey h0) (pkey p) = true := by
        rw [← hk]
        exact hh0 q hq0
      simp only [minsert]
      have h1 : ¬ (str_lt (pkey p) (pkey h0) = true) := by
        simp [str_lt_asymm hlt]
      rw [if_neg h1, if_pos hlt]
      rw [ih p q hhs hq0 hk]

/-- Membership in the deduplicating merge of two sorted sets: an element of
the first set, or an element of the second set whose canonical string
matches nothing in the first (the first range's representative wins on
equivalent keys). -/
theorem mem_exp_union_iff :
    ∀ a b : compiled_expression, SortedE a → SortedE b →
      ∀ x, x ∈ exp_union a b ↔
        (x ∈ a ∨ (x ∈ b ∧ ∀ y ∈ a, mkey y ≠ mkey x)) := by
  intro a
  induction a with
  | nil =>
    intro b _ _ x
    rw [exp_union_nil_left]
    simp
  | cons xh xs iha =>
    intro b
    induction b with
    | nil =>
      intro ha _ x
      rw [exp_union_nil_right]
      simp
    | cons y ys ihb =>
      intro ha hb z
      rcases List.pairwise_cons.mp ha with ⟨hx, hxs⟩
      rcases List.pairwise_cons.mp hb with ⟨hy, hys⟩
      rw [exp_union_cons]
      rcases str_lt_trichotomy (mkey y) (mkey xh) with hyx | ⟨hyx, hxy, heq⟩ | hxy
      · rw [if_pos hyx]
        rw [List.mem_cons, ihb ha hys z]
        constructor
        · rintro (hz | hz | ⟨hz1, hz2⟩)
          · refine Or.inr ⟨by simp [hz], ?_⟩
            intro w hw
            rcases List.mem_cons.mp hw with hw2 | hw2
            · rw [hw2, hz]
              exact (str_lt_ne hyx).symm
            · rw [hz]
              exact (str_lt_ne (str_lt_trans hyx (hx w hw2))).symm
          · exact Or.inl hz
          · exact Or.inr ⟨by simp [hz1], hz2⟩
        · rintro (hz | ⟨hz1, hz2⟩)
          · exact Or.inr (Or.inl hz)
          · rcases List.mem_cons.mp hz1 with hz3 | hz3
            · exact Or.inl hz3
            · exact Or.inr (Or.inr ⟨hz3, hz2⟩)
      · have hnyx : ¬ (str_lt (mkey y) (mkey xh) = true) := by simp [hyx]
        have hnxy : ¬ (str_lt (mkey xh) (mkey y) = true) := by simp [hxy]
        rw [if_neg hnyx, if_neg hnxy]
        rw [List.mem_cons, iha ys hxs hys z]
        constructor
        · rintro (hz | hz | ⟨hz1, hz2⟩)
          · exact Or.inl (by simp [hz])
          · exact Or.inl (by simp [hz])
          · refine Or.inr ⟨by simp [hz1], ?_⟩
            intro w hw
            rcases List.mem_cons.mp hw with hw2 | hw2
            · rw [hw2]
              have hxz : str_lt (mkey xh) (mkey z) = true := by
                rw [← heq]
                exact hy z hz1
              exact str_lt_ne hxz
            · exact hz2 w hw2
        · rintro (hz | ⟨hz1, hz2⟩)
          · rcases List.mem_cons.mp hz with hz3 | hz3
            · exact Or.inl hz3
            · exact Or.inr (Or.inl hz3)
          · rcases List.mem_cons.mp hz1 with hz3 | hz3
            · exfalso
              refine hz2 xh (by simp) ?_
              rw [hz3, ← heq]
            · exact Or.inr (Or.inr ⟨hz3, fun w hw => hz2 w (by simp [hw])⟩)
      · have hnyx : ¬ (str_lt (mkey y) (mkey xh) = true) := by
          simp [str_lt_asymm hxy]
        rw [if_neg hnyx, if_pos hxy]
        rw [List.mem_cons, iha (y :: ys) hxs hb z]
        constructor
        · rintro (hz | hz | ⟨hz1, hz2⟩)
          · exact Or.inl (by simp [hz])
          · exact Or.inl (by simp [hz])
          · refine Or.inr ⟨hz1, ?_⟩
            intro w hw
            rcases List.mem_cons.mp hw with hw2 | hw2
            · rw [hw2]
              rcases List.mem_cons.mp hz1 with hz3 | hz3
              · rw [hz3]
                exact str_lt_ne hxy
              · exact str_lt_ne (str_lt_trans hxy (hy z hz3))
            · exact hz2 w hw2
        · rintro (hz | ⟨hz1, hz2⟩)
          · rcases List.mem_cons.mp hz with hz3 | hz3
            · exact Or.inl hz3
            · exact Or.inr (Or.inl hz3)
          · exact Or.inr (Or.inr ⟨hz1, fun w hw => hz2 w (by simp [hw])⟩)

/-- C3: an empty compiled expression's `test` returns `true` for every
record input and for every snapshot/raw-data input — the empty expression is
the deliberate always-match sentinel, not a contradiction. -/
theorem c3_empty_expression_always_match :
    ∀ (r : record_t), compiled_expression.test [] r = true ∧
      ∀ (δ : Type) (snap : schema_snapshot δ) (data : δ),
        compiled_expression.test_snap [] snap data = true :=
  fun _ => ⟨rfl, fun _ _ _ => rfl⟩

/-- C5: every AST node that is not a recognized leaf comparison or an
`AND`/`OR` combinator is a compilation error: function payloads,
unrecognized payload types, and operator codes outside the recognized set
each raise the source's error rather than being silently ignored, and no
partial compiled expression is ever returned (`Except.error` carries no
result).  Evaluation of a compiled expression is total, with only boolean
outcomes. -/
theorem c5_unsupported_shapes_error (s : schema_t) :
    (utree_compile_expression s utree.func =
      Except.error "Functions not supported") ∧
    (∀ tyname, utree_compile_expression s (utree.unrecognized tyname) =
      Except.error ("Unrecognized type " ++ tyname)) ∧
    (∀ (op : Int) (attr value : String), relop_of_code op = none →
      op ≠ and_or.OR → op ≠ and_or.AND →
      utree_compile_expression s (utree.leaf op attr value) =
        Except.error ("Unexpected op:" ++ toString op)) ∧
    (∀ (op : Int) (l r : utree), relop_of_code op = none →
      op ≠ and_or.OR → op ≠ and_or.AND →
      utree_compile_expression s (utree.comb op l r) =
        Except.error ("Unexpected op:" ++ toString op)) ∧
    (∀ (e : compiled_expression) (r : record_t),
      compiled_expression.test e r = true ∨
        compiled_expression.test e r = false) := by
  refine ⟨rfl, fun tyname => rfl, ?_, ?_, ?_⟩
  · intro op attr value hro hne1 hne2
    simp only [utree_compile_expression, hro]
    have hc : ¬ ((op == and_or.OR || op == and_or.AND) = true) := by
      simp [hne1, hne2]
    rw [if_neg hc]
  · intro op l r hro hne1 hne2
    simp only [utree_compile_expression, hro]
    have hc1 : ¬ ((op == and_or.OR) = true) := by simp [hne1]
    have hc2 : ¬ ((op == and_or.AND) = true) := by simp [hne2]
    rw [if_neg hc1, if_neg hc2]
  · intro e r
    cases h : compiled_expression.test e r
    · exact Or.inr rfl
    · exact Or.inl rfl

/-- C5 witness: the error conclusions instantiated at the concrete operator
code `99`, a concrete leaf and a concrete combinator node. -/
theorem c5_unsupported_shapes_error_witness :
    utree_compile_expression [] (utree.leaf 99 "a" "1") =
      Except.error ("Unexpected op:" ++ toString (99 : Int)) ∧
    utree_compile_expression [] (utree.comb 99 utree.func utree.func) =
      Except.error ("Unexpected op:" ++ toString (99 : Int)) :=
  ⟨(c5_unsupported_shapes_error []).2.2.1 99 "a" "1" (by decide) (by decide)
      (by decide),
    (c5_unsupported_shapes_error []).2.2.2.1 99 utree.func utree.func
      (by decide) (by decide) (by decide)⟩

/-- C6: a compiled minterm's `test` iterates the stored (ascending
canonical) order and computes the conjunction of its members' tests: it is
the fold `all` of the member tests, the empty minterm tests vacuously true,
and a head predicate that tests false makes the whole test false without
regard to (i.e. without evaluating) the remaining predicates. -/
theorem c6_minterm_test_conjunction :
    ∀ (m : compiled_minterm) (r : record_t),
      (compiled_minterm.test m r =
        m.all (fun p => compiled_predicate.test p r)) ∧
      (compiled_minterm.test ([] : compiled_minterm) r = true) ∧
      (∀ (p : compiled_predicate) (rest : List compiled_predicate),
        compiled_minterm.test (p :: rest) r =
          (if compiled_predicate.test p r then compiled_minterm.test rest r
           else false)) :=
  fun m r => ⟨minterm_test_eq_all m r, rfl, fun _ _ => rfl⟩

/-- C9: evaluating `compiled_expression::to_string` at the two-minterm
expression compiled from `a == 1 OR a == 2` renders "a==1a==2": the `" or "`
separator between the last two minterms is missing, because the loop guard
compares the incremented counter against `size() - 1` instead of `size()`.
The claimed rendering `first + " or " + second` is what the spec requires;
the code produces the concatenation without the separator. -/
theorem c9_to_string_separator_offbyone :
    (utree_compile_expression [⟨"a", 0, field_type.INT⟩]
        (utree.comb and_or.OR (utree.leaf 0 "a" "1")
          (utree.leaf 0 "a" "2"))).map
      compiled_expression.to_string = Except.ok "a==1a==2" ∧
    "a==1a==2" ≠ "a==1" ++ " or " ++ "a==2" :=
  ⟨rfl, by decide⟩

/-- C10: the test of a compiled expression depends only on the record fields
referenced by its predicates — two records that agree at every referenced
field index always yield the same test result. -/
theorem c10_test_reads_only_referenced_fields :
    ∀ (e : compiled_expression) (r1 r2 : record_t),
      (∀ m ∈ e, ∀ p ∈ m,
        record_get r1 p.field_idx = record_get r2 p.field_idx) →
      compiled_expression.test e r1 = compiled_expression.test e r2 := by
  intro e r1 r2 h
  have hm_lemma : ∀ (m : compiled_minterm),
      (∀ p ∈ m, record_get r1 p.field_idx = record_get r2 p.field_idx) →
      compiled_minterm.test m r1 = compiled_minterm.test m r2 := by
    intro m
    induction m with
    | nil => intro _; rfl
    | cons p ps ih =>
      intro hm
      have hpe : compiled_predicate.test p r1 = compiled_predicate.test p r2 := by
        simp only [compiled_predicate.test]
        rw [hm p (by simp)]
      simp only [compiled_minterm.test]
      rw [hpe, ih (fun q hq => hm q (by simp [hq]))]
  have hloop : ∀ (e2 : compiled_expression),
      (∀ m ∈ e2, ∀ p ∈ m, record_get r1 p.field_idx = record_get r2 p.field_idx) →
      ce_loop e2 r1 = ce_loop e2 r2 := by
    intro e2
    induction e2 with
    | nil => intro _; rfl
    | cons m ms ih =>
      intro h2
      rw [ce_loop_cons, ce_loop_cons]
      rw [hm_lemma m (fun p hp => h2 m (by simp) p hp)]
      rw [ih (fun m2 hm2 p hp => h2 m2 (by simp [hm2]) p hp)]
  cases e with
  | nil => rfl
  | cons m ms =>
    rw [ce_test_of_ne_nil (by simp) r1, ce_test_of_ne_nil (by simp) r2]
    exact hloop (m :: ms) h

/-- C10 witness: a concrete expression over field index 0 tests identically
on two records that differ only at the unreferenced index 1. -/
theorem c10_test_reads_only_referenced_fields_witness :
    compiled_expression.test
        [[⟨"a", 0, reational_op_id.EQ, typed_value.intV 1⟩]]
        [typed_value.intV 1, typed_value.intV 7] =
      compiled_expression.test
        [[⟨"a", 0, reational_op_id.EQ, typed_value.intV 1⟩]]
        [typed_value.intV 1, typed_value.intV 8] :=
  c10_test_reads_only_referenced_fields
    [[⟨"a", 0, reational_op_id.EQ, typed_value.intV 1⟩]]
    [typed_value.intV 1, typed_value.intV 7]
    [typed_value.intV 1, typed_value.intV 8]
    (by decide)

/-- C2: deduplication idempotence.  For a leaf comparison that compiles to
the predicate `p`, the leaf itself compiles to the singleton expression over
the singleton minterm `[p]`; `AND(leaf, leaf)` compiles to exactly one
minterm containing exactly one predicate, equal to the leaf's predicate; and
`OR(leaf, leaf)` compiles to exactly one minterm. -/
theorem c2_dedup_idempotence (s : schema_t) (rop : reational_op_id)
    (attr value : String) (p : compiled_predicate)
    (hmk : mk_predicate attr rop value s = Except.ok p) :
    utree_compile_expression s (utree.leaf (relop_code rop) attr value) =
      Except.ok [[p]] ∧
    utree_compile_expression s
      (utree.comb and_or.AND (utree.leaf (relop_code rop) attr value)
        (utree.leaf (relop_code rop) attr value)) = Except.ok [[p]] ∧
    utree_compile_expression s
      (utree.comb and_or.OR (utree.leaf (relop_code rop) attr value)
        (utree.leaf (relop_code rop) attr value)) = Except.ok [[p]] := by
  have h1 : utree_compile_expression s (utree.leaf (relop_code rop) attr value) =
      Except.ok [[p]] := by
    simp only [utree_compile_expression, relop_of_code_code, hmk]
    rfl
  have huec : utree_expand_conjunction s (utree.leaf (relop_code rop) attr value)
      [p] = Except.ok [minsert [p] p] := by
    rw [uec_leaf]
    simp only [relop_of_code_code, hmk]
  have hmins : minsert [p] p = [p] := by
    simp [minsert, str_lt_irrefl]
  refine ⟨h1, ?_, ?_⟩
  · have step : utree_compile_expression s
        (utree.comb and_or.AND (utree.leaf (relop_code rop) attr value)
          (utree.leaf (relop_code rop) attr value)) =
        (match utree_compile_expression s (utree.leaf (relop_code rop) attr value) with
         | Except.error msg => Except.error msg
         | Except.ok left =>
           expandListGo
             (utree_expand_conjunction s (utree.leaf (relop_code rop) attr value))
             left []) := rfl
    rw [step]
    simp only [h1]
    simp only [expandListGo, huec, hmins]
    rw [exp_union_nil_left]
  · have step : utree_compile_expression s
        (utree.comb and_or.OR (utree.leaf (relop_code rop) attr value)
          (utree.leaf (relop_code rop) attr value)) =
        (match utree_compile_expression s (utree.leaf (relop_code rop) attr value) with
         | Except.error msg => Except.error msg
         | Except.ok left =>
           match utree_compile_expression s (utree.leaf (relop_code rop) attr value) with
           | Except.error msg => Except.error msg
           | Except.ok right => Except.ok (exp_union left right)) := rfl
    rw [step]
    simp only [h1]
    have hself : exp_union [[p]] [[p]] = [[p]] := by
      rw [exp_union_cons]
      have h3 : ¬ (str_lt (mkey [p]) (mkey [p]) = true) := by
        simp [str_lt_irrefl]
      rw [if_neg h3, if_neg h3]
      rfl
    rw [hself]

/-- C2 witness: the idempotence equations at a concrete leaf `a == 1` over
the schema `{a : INT}`. -/
theorem c2_dedup_idempotence_witness :
    utree_compile_expression [⟨"a", 0, field_type.INT⟩]
      (utree.comb and_or.AND (utree.leaf (relop_code reational_op_id.EQ) "a" "1")
        (utree.leaf (relop_code reational_op_id.EQ) "a" "1")) =
      Except.ok [[⟨"a", 0, reational_op_id.EQ, typed_value.intV 1⟩]] ∧
    utree_compile_expression [⟨"a", 0, field_type.INT⟩]
      (utree.comb and_or.OR (utree.leaf (relop_code reational_op_id.EQ) "a" "1")
        (utree.leaf (relop_code reational_op_id.EQ) "a" "1")) =
      Except.ok [[⟨"a", 0, reational_op_id.EQ, typed_value.intV 1⟩]] :=
  ⟨(c2_dedup_idempotence [⟨"a", 0, field_type.INT⟩] reational_op_id.EQ "a" "1"
      ⟨"a", 0, reational_op_id.EQ, typed_value.intV 1⟩ rfl).2.1,
    (c2_dedup_idempotence [⟨"a", 0, field_type.INT⟩] reational_op_id.EQ "a" "1"
      ⟨"a", 0, reational_op_id.EQ, typed_value.intV 1⟩ rfl).2.2⟩

/-- C4: the canonical string form of the compiled result is invariant under
swapping the operands of a commutative combinator: for any two leaf
comparisons that compile without error, `AND(leaf_a, leaf_b)` and
`AND(leaf_b, leaf_a)` compile to the same canonical string, and likewise for
`OR` — the string-ordered set representation makes the result deterministic
and independent of traversal order. -/
theorem c4_commutative_operand_order (s : schema_t)
    (ropa ropb : reational_op_id) (attra attrb va vb : String)
    (pa pb : compiled_predicate)
    (ha : mk_predicate attra ropa va s = Except.ok pa)
    (hb : mk_predicate attrb ropb vb s = Except.ok pb) :
    (utree_compile_expression s
        (utree.comb and_or.AND (utree.leaf (relop_code ropa) attra va)
          (utree.leaf (relop_code ropb) attrb vb))).map
      compiled_expression.to_string =
    (utree_compile_expression s
        (utree.comb and_or.AND (utree.leaf (relop_code ropb) attrb vb)
          (utree.leaf (relop_code ropa) attra va))).map
      compiled_expression.to_string ∧
    (utree_compile_expression s
        (utree.comb and_or.OR (utree.leaf (relop_code ropa) attra va)
          (utree.leaf (relop_code ropb) attrb vb))).map
      compiled_expression.to_string =
    (utree_compile_expression s
        (utree.comb and_or.OR (utree.leaf (relop_code ropb) attrb vb)
          (utree.leaf (relop_code ropa) attra va))).map
      compiled_expression.to_string := by
  have h1a : utree_compile_expression s (utree.leaf (relop_code ropa) attra va) =
      Except.ok [[pa]] := by
    simp only [utree_compile_expression, relop_of_code_code, ha]
    rfl
  have h1b : utree_compile_expression s (utree.leaf (relop_code ropb) attrb vb) =
      Except.ok [[pb]] := by
    simp only [utree_compile_expression, relop_of_code_code, hb]
    rfl
  have huecb : utree_expand_conjunction s (utree.leaf (relop_code ropb) attrb vb)
      [pa] = Except.ok [minsert [pa] pb] := by
    rw [uec_leaf]
    simp only [relop_of_code_code, hb]
  have hueca : utree_expand_conjunction s (utree.leaf (relop_code ropa) attra va)
      [pb] = Except.ok [minsert [pb] pa] := by
    rw [uec_leaf]
    simp only [relop_of_code_code, ha]
  have hAB : utree_compile_expression s
      (utree.comb and_or.AND (utree.leaf (relop_code ropa) attra va)
        (utree.leaf (relop_code ropb) attrb vb)) =
      Except.ok [minsert [pa] pb] := by
    have step : utree_compile_expression s
        (utree.comb and_or.AND (utree.leaf (relop_code ropa) attra va)
          (utree.leaf (relop_code ropb) attrb vb)) =
        (match utree_compile_expression s (utree.leaf (relop_code ropa) attra va) with
         | Except.error msg => Except.error msg
         | Except.ok left =>
           expandListGo
             (utree_expand_conjunction s (utree.leaf (relop_code ropb) attrb vb))
             left []) := rfl
    rw [step]
    simp only [h1a]
    simp only [expandListGo, huecb]
    rw [exp_union_nil_left]
  have hBA : utree_compile_expression s
      (utree.comb and_or.AND (utree.leaf (relop_code ropb) attrb vb)
        (utree.leaf (relop_code ropa) attra va)) =
      Except.ok [minsert [pb] pa] := by
    have step : utree_compile_expression s
        (utree.comb and_or.AND (utree.leaf (relop_code ropb) attrb vb)
          (utree.leaf (relop_code ropa) attra va)) =
        (match utree_compile_expression s (utree.leaf (relop_code ropb) attrb vb) with
         | Except.error msg => Except.error msg
         | Except.ok left =>
           expandListGo
             (utree_expand_conjunction s (utree.leaf (relop_code ropa) attra va))
             left []) := rfl
    rw [step]
    simp only [h1b]
    simp only [expandListGo, hueca]
    rw [exp_union_nil_left]
  have hOab : utree_compile_expression s
      (utree.comb and_or.OR (utree.leaf (relop_code ropa) attra va)
        (utree.leaf (relop_code ropb) attrb vb)) =
      Except.ok (exp_union [[pa]] [[pb]]) := by
    have step : utree_compile_expression s
        (utree.comb and_or.OR (utree.leaf (relop_code ropa) attra va)
          (utree.leaf (relop_code ropb) attrb vb)) =
        (match utree_compile_expression s (utree.leaf (relop_code ropa) attra va) with
         | Except.error msg => Except.error msg
         | Except.ok left =>
           match utree_compile_expression s (utree.leaf (relop_code ropb) attrb vb) with
           | Except.error msg => Except.error msg
           | Except.ok right => Except.ok (exp_union left right)) := rfl
    rw [step]
    simp only [h1a, h1b]
  have hOba : utree_compile_expression s
      (utree.comb and_or.OR (utree.leaf (relop_code ropb) attrb vb)
        (utree.leaf (relop_code ropa) attra va)) =
      Except.ok (exp_union [[pb]] [[pa]]) := by
    have step : utree_compile_expression s
        (utree.comb and_or.OR (utree.leaf (relop_code ropb) attrb vb)
          (utree.leaf (relop_code ropa) attra va)) =
        (match utree_compile_expression s (utree.leaf (relop_code ropb) attrb vb) with
         | Except.error msg => Except.error msg
         | Except.ok left =>
           match utree_compile_expression s (utree.leaf (relop_code ropa) attra va) with
           | Except.error msg => Except.error msg
           | Except.ok right => Except.ok (exp_union left right)) := rfl
    rw [step]
    simp only [h1b, h1a]
  constructor
  · rw [hAB, hBA]
    simp only [Except.map]
    have hkey : compiled_expression.to_string [minsert [pa] pb] =
        compiled_expression.to_string [minsert [pb] pa] := by
      rcases str_lt_trichotomy (pkey pb) (pkey pa) with hlt | ⟨hn1, hn2, hk⟩ | hgt
      · have e1 : minsert [pa] pb = [pb, pa] := by
          simp only [minsert]
          rw [if_pos hlt]
        have e2 : minsert [pb] pa = [pb, pa] := by
          simp only [minsert]
          have hna : ¬ (str_lt (pkey pa) (pkey pb) = true) := by
            simp [str_lt_asymm hlt]
          rw [if_neg hna, if_pos hlt]
        rw [e1, e2]
      · have e1 : minsert [pa] pb = [pa] := by
          simp only [minsert]
          rw [if_neg (by simp [hn1]), if_neg (by simp [hn2])]
        have e2 : minsert [pb] pa = [pb] := by
          simp only [minsert]
          rw [if_neg (by simp [hn2]), if_neg (by simp [hn1])]
        rw [e1, e2]
        have hk2 : compiled_predicate.to_string pb =
            compiled_predicate.to_string pa := hk
        simp only [compiled_expression.to_string, ces_aux,
          compiled_minterm.to_string, mts_aux]
        rw [hk2]
      · have e1 : minsert [pa] pb = [pa, pb] := by
          simp only [minsert]
          have hnb : ¬ (str_lt (pkey pb) (pkey pa) = true) := by
            simp [str_lt_asymm hgt]
          rw [if_neg hnb, if_pos hgt]
        have e2 : minsert [pb] pa = [pa, pb] := by
          simp only [minsert]
          rw [if_pos hgt]
        rw [e1, e2]
    rw [hkey]
  · rw [hOab, hOba]
    simp only [Except.map]
    have hkey : compiled_expression.to_string (exp_union [[pa]] [[pb]]) =
        compiled_expression.to_string (exp_union [[pb]] [[pa]]) := by
      rcases str_lt_trichotomy (mkey [pb]) (mkey [pa]) with hlt | ⟨hn1, hn2, hk⟩ | hgt
      · have e1 : exp_union [[pa]] [[pb]] = [[pb], [pa]] := by
          rw [exp_union_cons]
          rw [if_pos hlt]
          rw [exp_union_nil_right]
        have e2 : exp_union [[pb]] [[pa]] = [[pb], [pa]] := by
          rw [exp_union_cons]
          have hna : ¬ (str_lt (mkey [pa]) (mkey [pb]) = true) := by
            simp [str_lt_asymm hlt]
          rw [if_neg hna, if_pos hlt]
          rw [exp_union_nil_left]
        rw [e1, e2]
      · have e1 : exp_union [[pa]] [[pb]] = [[pa]] := by
          rw [exp_union_cons]
          rw [if_neg (by simp [hn1]), if_neg (by simp [hn2])]
          rfl
        have e2 : exp_union [[pb]] [[pa]] = [[pb]] := by
          rw [exp_union_cons]
          rw [if_neg (by simp [hn2]), if_neg (by simp [hn1])]
          rfl
        rw [e1, e2]
        have hk2 : compiled_minterm.to_string [pb] =
            compiled_minterm.to_string [pa] := hk
        simp only [compiled_expression.to_string, ces_aux]
        rw [hk2]
      · have e1 : exp_union [[pa]] [[pb]] = [[pa], [pb]] := by
          rw [exp_union_cons]
          have hnb : ¬ (str_lt (mkey [pb]) (mkey [pa]) = true) := by
            simp [str_lt_asymm hgt]
          rw [if_neg hnb, if_pos hgt]
          rw [exp_union_nil_left]
        have e2 : exp_union [[pb]] [[pa]] = [[pa], [pb]] := by
          rw [exp_union_cons]
          rw [if_pos hgt]
          rw [exp_union_nil_right]
        rw [e1, e2]
    rw [hkey]

/-- C4 witness: operand-order invariance at the concrete leaves `a == 1` and
`b < 2` over the schema `{a : INT, b : INT}`. -/
theorem c4_commutative_operand_order_witness :
    (utree_compile_expression [⟨"a", 0, field_type.INT⟩, ⟨"b", 1, field_type.INT⟩]
        (utree.comb and_or.AND (utree.leaf (relop_code reational_op_id.EQ) "a" "1")
          (utree.leaf (relop_code reational_op_id.LT) "b" "2"))).map
      compiled_expression.to_string =
    (utree_compile_expression [⟨"a", 0, field_type.INT⟩, ⟨"b", 1, field_type.INT⟩]
        (utree.comb and_or.AND (utree.leaf (relop_code reational_op_id.LT) "b" "2")
          (utree.leaf (relop_code reational_op_id.EQ) "a" "1"))).map
      compiled_expression.to_string :=
  (c4_commutative_operand_order
    [⟨"a", 0, field_type.INT⟩, ⟨"b", 1, field_type.INT⟩]
    reational_op_id.EQ reational_op_id.LT "a" "b" "1" "2"
    ⟨"a", 0, reational_op_id.EQ, typed_value.intV 1⟩
    ⟨"b", 1, reational_op_id.LT, typed_value.intV 2⟩ rfl rfl).1

/-- C7: expanding a base minterm against `OR(left, right)` is exactly the
deduplicated set union of the two separate expansions — the shared conjunct
distributes into both disjuncts.  The union is characterized as a set union
deduplicated by minterm canonical form: its members are the members of the
left expansion together with those members of the right expansion whose
canonical string matches nothing on the left, and it is strictly ordered by
canonical form. -/
theorem c7_expand_or_is_union (s : schema_t) (m : compiled_minterm)
    (l r : utree) (el er : compiled_expression)
    (hsm : SortedM m)
    (hl : utree_expand_conjunction s l m = Except.ok el)
    (hr : utree_expand_conjunction s r m = Except.ok er) :
    utree_expand_conjunction s (utree.comb and_or.OR l r) m =
      Except.ok (exp_union el er) ∧
    SortedE (exp_union el er) ∧
    (∀ x, x ∈ exp_union el er ↔
      (x ∈ el ∨ (x ∈ er ∧ ∀ y ∈ el, mkey y ≠ mkey x))) := by
  have hel_sorted : SortedE el :=
    (expand_good s (leafPreds s l ++ m) l m el
      (leaves_in_mono (fun p hp => by simp [hp]) l (leaves_in_leafPreds s l))
      hsm (fun p hp => by simp [hp]) hl).1
  have her_sorted : SortedE er :=
    (expand_good s (leafPreds s r ++ m) r m er
      (leaves_in_mono (fun p hp => by simp [hp]) r (leaves_in_leafPreds s r))
      hsm (fun p hp => by simp [hp]) hr).1
  refine ⟨?_, exp_union_sorted el er hel_sorted her_sorted,
    mem_exp_union_iff el er hel_sorted her_sorted⟩
  rw [uec_comb]
  simp only [relop_of_code_OR]
  rw [if_pos (by decide : (and_or.OR == and_or.OR) = true)]
  simp only [hl, hr]

/-- C7 witness: the union equation at the concrete base minterm `[a == 1]`
and leaves `a == 2`, `a < 5` over the schema `{a : INT}`. -/
theorem c7_expand_or_is_union_witness :
    utree_expand_conjunction [⟨"a", 0, field_type.INT⟩]
      (utree.comb and_or.OR (utree.leaf 0 "a" "2") (utree.leaf 2 "a" "5"))
      [⟨"a", 0, reational_op_id.EQ, typed_value.intV 1⟩] =
    Except.ok (exp_union
      [[⟨"a", 0, reational_op_id.EQ, typed_value.intV 1⟩,
        ⟨"a", 0, reational_op_id.EQ, typed_value.intV 2⟩]]
      [[⟨"a", 0, reational_op_id.LT, typed_value.intV 5⟩,
        ⟨"a", 0, reational_op_id.EQ, typed_value.intV 1⟩]]) :=
  (c7_expand_or_is_union [⟨"a", 0, field_type.INT⟩]
    [⟨"a", 0, reational_op_id.EQ, typed_value.intV 1⟩]
    (utree.leaf 0 "a" "2") (utree.leaf 2 "a" "5")
    [[⟨"a", 0, reational_op_id.EQ, typed_value.intV 1⟩,
      ⟨"a", 0, reational_op_id.EQ, typed_value.intV 2⟩]]
    [[⟨"a", 0, reational_op_id.LT, typed_value.intV 5⟩,
      ⟨"a", 0, reational_op_id.EQ, typed_value.intV 1⟩]]
    (by decide) rfl rfl).1

/-- C8: deduplication invariants.  Every compiled expression is strictly
ordered by minterm canonical form (so no two of its minterms compare equal),
every minterm in it is strictly ordered by predicate canonical form (so no
two of its predicates compare equal); the set union of sorted expressions
keeps minterms pairwise distinct; ordered insertion preserves the minterm
invariant; and adding a predicate equal (by canonical form) to one already
present is a no-op. -/
theorem c8_dedup_invariants (s : schema_t) (t : utree) (e : compiled_expression)
    (hok : utree_compile_expression s t = Except.ok e) :
    e.Pairwise (fun m1 m2 => mkey m1 ≠ mkey m2) ∧
    (∀ m ∈ e, m.Pairwise (fun p q => pkey p ≠ pkey q)) ∧
    (∀ (a b : compiled_expression), SortedE a → SortedE b →
      (exp_union a b).Pairwise (fun m1 m2 => mkey m1 ≠ mkey m2)) ∧
    (∀ (m : compiled_minterm) (p : compiled_predicate), SortedM m →
      SortedM (minsert m p)) ∧
    (∀ (m : compiled_minterm) (p q : compiled_predicate), SortedM m →
      q ∈ m → pkey q = pkey p → minsert m p = m) := by
  have hg := compile_good s (leafPreds s t) t e (leaves_in_leafPreds s t) hok
  refine ⟨hg.1.imp (fun h => str_lt_ne h), ?_, ?_, minsert_sorted, minsert_noop⟩
  · intro m hm
    exact ((hg.2 m hm).1).imp (fun h => str_lt_ne h)
  · intro a b ha hb
    exact (exp_union_sorted a b ha hb).imp (fun h => str_lt_ne h)

/-- C8 witness: the invariants at the concrete compilation of
`a == 1 OR a == 2`, and the concrete no-op insertion of a duplicate
predicate. -/
theorem c8_dedup_invariants_witness :
    ([[⟨"a", 0, reational_op_id.EQ, typed_value.intV 1⟩],
      [⟨"a", 0, reational_op_id.EQ, typed_value.intV 2⟩]] :
        compiled_expression).Pairwise (fun m1 m2 => mkey m1 ≠ mkey m2) ∧
    minsert [⟨"a", 0, reational_op_id.EQ, typed_value.intV 1⟩]
        ⟨"a", 0, reational_op_id.EQ, typed_value.intV 1⟩ =
      [⟨"a", 0, reational_op_id.EQ, typed_value.intV 1⟩] :=
  ⟨(c8_dedup_invariants [⟨"a", 0, field_type.INT⟩]
      (utree.comb and_or.OR (utree.leaf 0 "a" "1") (utree.leaf 0 "a" "2"))
      [[⟨"a", 0, reational_op_id.EQ, typed_value.intV 1⟩],
       [⟨"a", 0, reational_op_id.EQ, typed_value.intV 2⟩]] rfl).1,
    (c8_dedup_invariants [⟨"a", 0, field_type.INT⟩]
      (utree.comb and_or.OR (utree.leaf 0 "a" "1") (utree.leaf 0 "a" "2"))
      [[⟨"a", 0, reational_op_id.EQ, typed_value.intV 1⟩],
       [⟨"a", 0, reational_op_id.EQ, typed_value.intV 2⟩]] rfl).2.2.2.2
      [⟨"a", 0, reational_op_id.EQ, typed_value.intV 1⟩]
      ⟨"a", 0, reational_op_id.EQ, typed_value.intV 1⟩
      ⟨"a", 0, reational_op_id.EQ, typed_value.intV 1⟩
      (by decide) (by decide) rfl⟩

/-- C1 counterexample: the claim as stated — with no collision-freedom
hypothesis — is false.  Over the schema `{x : STRING, xx : STRING}`, take
`A = (x != "q")`, `B = (x == "1" AND xx == "2")`, `C = (x == "1 and xx==2")`.
All leaves compile, yet on the record `(x = "1 and xx==2", xx = "zzz")` the
compiled `AND(A, OR(B, C))` tests false while
`compile(A).test AND (compile(B).test OR compile(C).test)` is true: the
minterm of `B` and the minterm of `C` acquire the same canonical string
`"x==1 and xx==2"` inside their respective conjunctions with `A`, so the
set union deduplicates them, discarding the disjunct that would have
matched. -/
theorem c1_and_or_distribution_counterexample :
    ((utree_compile_expression
        [⟨"x", 0, field_type.STRING⟩, ⟨"xx", 1, field_type.STRING⟩]
        (utree.comb and_or.AND (utree.leaf 1 "x" "q")
          (utree.comb and_or.OR
            (utree.comb and_or.AND (utree.leaf 0 "x" "1") (utree.leaf 0 "xx" "2"))
            (utree.leaf 0 "x" "1 and xx==2")))).map
      (fun e => compiled_expression.test e
        [typed_value.strV "1 and xx==2", typed_value.strV "zzz"]) =
      Except.ok false) ∧
    ((utree_compile_expression
        [⟨"x", 0, field_type.STRING⟩, ⟨"xx", 1, field_type.STRING⟩]
        (utree.leaf 1 "x" "q")).map
      (fun e => compiled_expression.test e
        [typed_value.strV "1 and xx==2", typed_value.strV "zzz"]) =
      Except.ok true) ∧
    ((utree_compile_expression
        [⟨"x", 0, field_type.STRING⟩, ⟨"xx", 1, field_type.STRING⟩]
        (utree.comb and_or.AND (utree.leaf 0 "x" "1")
          (utree.leaf 0 "xx" "2"))).map
      (fun e => compiled_expression.test e
        [typed_value.strV "1 and xx==2", typed_value.strV "zzz"]) =
      Except.ok false) ∧
    ((utree_compile_expression
        [⟨"x", 0, field_type.STRING⟩, ⟨"xx", 1, field_type.STRING⟩]
        (utree.leaf 0 "x" "1 and xx==2")).map
      (fun e => compiled_expression.test e
        [typed_value.strV "1 and xx==2", typed_value.strV "zzz"]) =
      Except.ok true) :=
  ⟨rfl, rfl, rfl, rfl⟩

/-- C1 witness: the amended distribution law instantiated over the schema
`{a : INT}` with `A = (a == 1)`, `B = (a == 2)`, `C = (a < 5)`, the sorted
collision-free universe of their three predicates, and the record
`(a = 1)`. -/
theorem c1_and_or_distribution_witness :
    compiled_expression.test
      [[⟨"a", 0, reational_op_id.LT, typed_value.intV 5⟩,
        ⟨"a", 0, reational_op_id.EQ, typed_value.intV 1⟩],
       [⟨"a", 0, reational_op_id.EQ, typed_value.intV 1⟩,
        ⟨"a", 0, reational_op_id.EQ, typed_value.intV 2⟩]]
      [typed_value.intV 1] =
      (compiled_expression.test
          [[⟨"a", 0, reational_op_id.EQ, typed_value.intV 1⟩]]
          [typed_value.intV 1] &&
        (compiled_expression.test
            [[⟨"a", 0, reational_op_id.EQ, typed_value.intV 2⟩]]
            [typed_value.intV 1] ||
          compiled_expression.test
            [[⟨"a", 0, reational_op_id.LT, typed_value.intV 5⟩]]
            [typed_value.intV 1])) :=
  c1_and_or_distribution
    [⟨"a", 0, field_type.INT⟩]
    [⟨"a", 0, reational_op_id.LT, typed_value.intV 5⟩,
     ⟨"a", 0, reational_op_id.EQ, typed_value.intV 1⟩,
     ⟨"a", 0, reational_op_id.EQ, typed_value.intV 2⟩]
    (utree.leaf 0 "a" "1") (utree.leaf 0 "a" "2") (utree.leaf 2 "a" "5")
    [[⟨"a", 0, reational_op_id.EQ, typed_value.intV 1⟩]]
    [[⟨"a", 0, reational_op_id.EQ, typed_value.intV 2⟩]]
    [[⟨"a", 0, reational_op_id.LT, typed_value.intV 5⟩]]
    [[⟨"a", 0, reational_op_id.LT, typed_value.intV 5⟩,
      ⟨"a", 0, reational_op_id.EQ, typed_value.intV 1⟩],
     [⟨"a", 0, reational_op_id.EQ, typed_value.intV 1⟩,
      ⟨"a", 0, reational_op_id.EQ, typed_value.intV 2⟩]]
    [typed_value.intV 1]
    (by decide) (by decide) (by decide) (by decide) (by decide)
    rfl rfl rfl rfl
